import Mathlib

set_option linter.unusedSectionVars false

/-!
# Verification of the `collections` repository (skip list and stack)

This file shallowly embeds the Go skip list of `skiplist/skip_list.go` and the
two stack implementations of the repository, and proves the specification
claims about them.

## Modelling notes for the skip list

* The pointer heap is modelled as an arena: a `List` of nodes, a pointer being
  an `Option Nat` index into the arena (`none` = Go `nil`).  The sentinel
  (`head`) lives at index `0`.
* `sync.Pool` may discard pooled nodes at any time, so a `pool.Get` that always
  falls through to `New` (a fresh zero node) is one of its permitted
  behaviours; `createNode` is modelled that way (fresh slot appended to the
  arena).  `freeNode` still performs the field reset the Go code does
  (the slot simply becomes unreachable instead of being recycled).
* The random draw of `geometric` (`⌈log(1-u)/log p⌉` for uniform `u ∈ [0,1)`,
  a value that ranges over all of `ℕ`) is modelled nondeterministically: the
  sample is an explicit `g : Nat` argument threaded to `Insert`.  The
  promotion probability is modelled as a rational, which is exact for the
  comparisons `p <= 0 || p >= 1` the Go code performs.
* Go `int` keys are modelled as `Int`: the code only compares keys, so no
  overflow is possible.
* The `sync.RWMutex` is not modelled: the embedding is sequential.
-/

namespace SkipListGo

/-- `MAX_LAYER`: the maximum number of layers in the skip list (Go constant). -/
def MAX_LAYER : Nat := 32

/-- One `skipListNode[T]`: forward pointers (array of `MAX_LAYER+1` pointers),
key, level and value.  A pointer is an arena index, `none` being `nil`. -/
structure SLNode (V : Type) where
  forward : List (Option Nat)
  key : Int
  level : Nat
  value : V
  deriving Repr, DecidableEq

/-- The `SkipList[T]` struct: the arena of nodes (head at index 0), the current
highest level, and the size.  The `sync.Pool` and mutex are not represented
(see the module comment). -/
structure SkipList (V : Type) where
  arena : List (SLNode V)
  level : Nat
  size : Nat
  deriving Repr, DecidableEq

variable {V : Type} [Inhabited V]

/-- Read `x.forward[i]` in the arena; a dangling index reads as `nil`. -/
def fwd (a : List (SLNode V)) (x i : Nat) : Option Nat :=
  match a[x]? with
  | some nd => nd.forward.getD i none
  | none => none

/-- Write `x.forward[i] = p` in the arena. -/
def setFwd (a : List (SLNode V)) (x i : Nat) (p : Option Nat) : List (SLNode V) :=
  match a[x]? with
  | some nd => a.set x { nd with forward := nd.forward.set i p }
  | none => a

/-- The key of the node at index `x` (0 for a dangling index). -/
def keyOf (a : List (SLNode V)) (x : Nat) : Int :=
  match a[x]? with
  | some nd => nd.key
  | none => 0

/-- The level of the node at index `x` (0 for a dangling index). -/
def levOf (a : List (SLNode V)) (x : Nat) : Nat :=
  match a[x]? with
  | some nd => nd.level
  | none => 0

/-- The value of the node at index `x`. -/
def valOf (a : List (SLNode V)) (x : Nat) : V :=
  match a[x]? with
  | some nd => nd.value
  | none => default

/-- The inner search loop
`for x.forward[i] != nil && x.forward[i].key < key { x = x.forward[i] }`,
with explicit fuel (the loop terminates in Go because chains are finite). -/
def advance (a : List (SLNode V)) (k : Int) (i : Nat) : Nat → Nat → Nat
  | 0, x => x
  | fuel + 1, x =>
    match fwd a x i with
    | none => x
    | some y =>
      match a[y]? with
      | none => x
      | some nd => if nd.key < k then advance a k i fuel y else x

/-- The position of the search cursor after the outer loop has processed
`d + 1` levels starting from the head at level `lvl` (so it has just run
the inner loop at level `lvl - d`). -/
def postXD (a : List (SLNode V)) (k : Int) (lvl : Nat) : Nat → Nat
  | 0 => advance a k lvl a.length 0
  | d + 1 => advance a k (lvl - (d + 1)) a.length (postXD a k lvl d)

/-- The position of the search cursor `x` after the outer loop has processed
levels `lvl, lvl-1, …, j` starting from the head.  `postX a k lvl j` is the
value recorded as `update[j]` by `Insert`/`Delete` (for `j ≤ lvl`), and
`postX a k lvl 0` is the final cursor of the search. -/
def postX (a : List (SLNode V)) (k : Int) (lvl j : Nat) : Nat :=
  postXD a k lvl (lvl - j)

/-- `CreateSkipList`: a single head node of level `MAX_LAYER` with all-nil
forward pointers (the zero node delivered by the pool's `New`), level 0,
size 0. -/
def CreateSkipList : SkipList V :=
  { arena := [{ forward := List.replicate (MAX_LAYER + 1) none
                key := 0, level := MAX_LAYER, value := default }]
    level := 0
    size := 0 }

/-- `Get`: search, then test the level-0 candidate. -/
def Get (s : SkipList V) (k : Int) : V × Bool :=
  let x := postX s.arena k s.level 0
  match (fwd s.arena x 0).bind (s.arena[·]?) with
  | some nd => if nd.key = k then (nd.value, true) else (default, false)
  | none => (default, false)

/-- One splice step of `Insert` at level `i`:
`x.forward[i] = update[i].forward[i]; update[i].forward[i] = x`. -/
def spliceStep (a : List (SLNode V)) (n pred i : Nat) : List (SLNode V) :=
  setFwd (setFwd a n i (fwd a pred i)) pred i (some n)

/-- The splice loop of `Insert`, processing levels `0, 1, …, i` in order. -/
def spliceTo (a : List (SLNode V)) (n : Nat) (updFn : Nat → Nat) : Nat → List (SLNode V)
  | 0 => spliceStep a n (updFn 0) 0
  | i + 1 => spliceStep (spliceTo a n updFn i) n (updFn (i + 1)) (i + 1)

/-- The new-key path of `Insert`, after the level `lvl` for the new node has
been drawn: extend the update trail with the head for newly exposed levels,
raise the current level, create the node and splice it in at levels
`0..=lvl`. -/
def insertNew (s : SkipList V) (k : Int) (v : V) (lvl : Nat) : SkipList V :=
  let a := s.arena
  let updFn := fun i => if i ≤ s.level then postX a k s.level i else 0
  let n := a.length
  let a1 := a ++ [{ forward := List.replicate (MAX_LAYER + 1) none
                    key := k, level := lvl, value := v }]
  { arena := spliceTo a1 n updFn lvl
    level := max s.level lvl
    size := s.size + 1 }

/-- `geometric`: panics (`none`) unless `0 < p < 1`; otherwise produces the
sample, which is modelled nondeterministically as the argument `g`
(the Go value `int(math.Ceil(math.Log(1-u)/math.Log(p)))` is a natural
number that can be any element of `ℕ`). -/
def geometric (p : ℚ) (g : Nat) : Option Nat :=
  if p ≤ 0 ∨ 1 ≤ p then none else some g

/-- `defaultRngLevelGen(p, m) = min(m, geometric(p))`. -/
def defaultRngLevelGen (p : ℚ) (m : Nat) (g : Nat) : Option Nat :=
  (geometric p g).map (fun v => min m v)

/-- The package-level default promotion probability `LAYER_PROMOTION_PROB`. -/
def LAYER_PROMOTION_PROB : ℚ := 1 / 4

/-- `Insert` with an explicit promotion probability `p`
(the Go package variable `LAYER_PROMOTION_PROB`): searches, overwrites in
place when the level-0 candidate already has the key (no level draw in that
case), otherwise draws the level — `none` models the `geometric` panic for a
misconfigured `p`. -/
def InsertP (p : ℚ) (s : SkipList V) (k : Int) (v : V) (g : Nat) :
    Option (SkipList V) :=
  let a := s.arena
  let x := postX a k s.level 0
  match fwd a x 0 with
  | some y =>
    match a[y]? with
    | some nd =>
      if nd.key = k then some { s with arena := a.set y { nd with value := v } }
      else
        match defaultRngLevelGen p MAX_LAYER g with
        | some lvl => some (insertNew s k v lvl)
        | none => none
    | none =>
      match defaultRngLevelGen p MAX_LAYER g with
      | some lvl => some (insertNew s k v lvl)
      | none => none
  | none =>
    match defaultRngLevelGen p MAX_LAYER g with
    | some lvl => some (insertNew s k v lvl)
    | none => none

/-- `Insert` under a valid promotion probability (the shipped default 0.25):
the drawn level is `min MAX_LAYER g`. -/
def Insert (s : SkipList V) (k : Int) (v : V) (g : Nat) : SkipList V :=
  let a := s.arena
  let x := postX a k s.level 0
  match fwd a x 0 with
  | some y =>
    match a[y]? with
    | some nd =>
      if nd.key = k then { s with arena := a.set y { nd with value := v } }
      else insertNew s k v (min MAX_LAYER g)
    | none => insertNew s k v (min MAX_LAYER g)
  | none => insertNew s k v (min MAX_LAYER g)

/-- The unlink loop of `Delete`, processing levels `i, i+1, …` while
`update[i].forward[i] == x` (`rem` iterations remain; the Go loop runs
`i = 0 ..= s.level` and breaks on the first mismatch). -/
def unlinkFrom (a : List (SLNode V)) (updFn : Nat → Nat) (x i : Nat) :
    Nat → List (SLNode V)
  | 0 => a
  | rem + 1 =>
    if fwd a (updFn i) i = some x then
      unlinkFrom (setFwd a (updFn i) i (fwd a x i)) updFn x (i + 1) rem
    else a

/-- The level-shrink loop of `Delete`:
`for s.level > 0 && s.head.forward[s.level] == nil { s.level-- }`. -/
def shrink (a : List (SLNode V)) : Nat → Nat
  | 0 => 0
  | l + 1 => if fwd a 0 (l + 1) = none then shrink a l else l + 1

/-- `freeNode`: clear the value, nil every forward pointer, zero level and
key (the node is handed back to the pool, which the model never reuses). -/
def freeNode (a : List (SLNode V)) (x : Nat) : List (SLNode V) :=
  a.set x { forward := List.replicate (MAX_LAYER + 1) none
            key := 0, level := 0, value := default }

/-- `Delete`: search, check the level-0 candidate, unlink level by level,
shrink the current level, decrement the size and recycle the node. -/
def Delete (s : SkipList V) (k : Int) : SkipList V × Bool :=
  let a := s.arena
  let updFn := fun i => postX a k s.level i
  let x := postX a k s.level 0
  match fwd a x 0 with
  | some y =>
    match a[y]? with
    | some nd =>
      if nd.key = k then
        let a1 := unlinkFrom a updFn y 0 (s.level + 1)
        let newLevel := shrink a1 s.level
        ({ arena := freeNode a1 y, level := newLevel, size := s.size - 1 }, true)
      else (s, false)
    | none => (s, false)
  | none => (s, false)

/-- `Size` returns the maintained element count. -/
def Size (s : SkipList V) : Nat := s.size

/-- The chain of node indices reached from pointer `p` by following
`forward[i]`, with fuel (used to state the order invariant over the walk a
diagnostic level-`i` traversal performs). -/
def chainList (a : List (SLNode V)) (i : Nat) : Nat → Option Nat → List Nat
  | 0, _ => []
  | _ + 1, none => []
  | fuel + 1, some x => x :: chainList a i fuel (fwd a x i)

/-- The level-`i` chain of the structure: the walk from the sentinel along
`forward[i]` pointers. -/
def levelChain (s : SkipList V) (i : Nat) : List Nat :=
  chainList s.arena i s.arena.length (fwd s.arena 0 i)

/-- A public mutating operation: `Insert(k, v)` (with its random sample `g`)
or `Delete(k)`. -/
inductive Op (V : Type) where
  | ins (k : Int) (v : V) (g : Nat)
  | del (k : Int)
  deriving Repr, DecidableEq

/-- Apply one operation to a state. -/
def applyOp (s : SkipList V) : Op V → SkipList V
  | .ins k v g => Insert s k v g
  | .del k => (Delete s k).1

/-- Run a sequence of mutating operations from a fresh skip list. -/
def run (ops : List (Op V)) : SkipList V :=
  ops.foldl applyOp CreateSkipList

/-! ### The abstract model: a sorted association list -/

/-- Model insert into a key-sorted association list (overwrite on equal
key). -/
def mInsert (k : Int) (v : V) : List (Int × V) → List (Int × V)
  | [] => [(k, v)]
  | (k', v') :: t =>
    if k < k' then (k, v) :: (k', v') :: t
    else if k = k' then (k, v) :: t
    else (k', v') :: mInsert k v t

/-- Model delete from an association list (first occurrence). -/
def mDelete (k : Int) : List (Int × V) → List (Int × V)
  | [] => []
  | (k', v') :: t => if k = k' then t else (k', v') :: mDelete k t

/-- Model lookup in an association list. -/
def mLookup (k : Int) : List (Int × V) → Option V
  | [] => none
  | (k', v') :: t => if k = k' then some v' else mLookup k t

/-- One step of the abstract model. -/
def mStep (m : List (Int × V)) : Op V → List (Int × V)
  | .ins k v _ => mInsert k v m
  | .del k => mDelete k m

/-- Run a sequence of operations on the abstract model. -/
def mRun (ops : List (Op V)) : List (Int × V) :=
  ops.foldl mStep []

/-- The abstraction of a concrete master chain `L` (the level-0 list of node
indices): the association list it stores. -/
def absL (a : List (SLNode V)) (L : List Nat) : List (Int × V) :=
  L.map (fun x => (keyOf a x, valOf a x))

end SkipListGo

/-! ## The two stack implementations

`stacklib` embeds the private `stack[T]` of `stack/stack.go`;
`stackexp` embeds the exported `Stack[T]` slice variant.  A Go slice
`[]T` is modelled as a `List T` (index 0 = front; push/pop at the back). -/

namespace stacklib

variable {T : Type} [Inhabited T]

/-- `stack.Len`. -/
def Len (s : List T) : Nat := s.length

/-- `stack.Push`: `*s = append(*s, t)`. -/
def Push (s : List T) (t : T) : List T := s ++ [t]

/-- `stack.Pop`: empty gives `(*new(T), false)`; otherwise remove and return
the last element. -/
def Pop (s : List T) : List T × T × Bool :=
  if s.length = 0 then (s, default, false)
  else (s.take (s.length - 1), s.getLastD default, true)

/-- `stack.Peek`: empty gives `(*new(T), false)`; otherwise the last
element. -/
def Peek (s : List T) : T × Bool :=
  if s.length = 0 then (default, false)
  else (s.getLastD default, true)

end stacklib

namespace stackexp

variable {T : Type} [Inhabited T]

/-- `Stack.Len`. -/
def Len (s : List T) : Nat := s.length

/-- `Stack.Push`: `*s = append(*s, t)`. -/
def Push (s : List T) (t : T) : List T := s ++ [t]

/-- `Stack.Pop`: empty gives `(zero, false)`; otherwise remove and return the
last element. -/
def Pop (s : List T) : List T × T × Bool :=
  if s.length = 0 then (s, default, false)
  else (s.take (s.length - 1), s.getLastD default, true)

/-- `Stack.Peek`: empty gives `(zero, false)`; otherwise the last
element. -/
def Peek (s : List T) : T × Bool :=
  if s.length = 0 then (default, false)
  else (s.getLastD default, true)

end stackexp

namespace SkipListGo

variable {V : Type} [Inhabited V]

/-! ### Arena access lemmas -/

theorem length_setFwd (a : List (SLNode V)) (x i : Nat) (p : Option Nat) :
    (setFwd a x i p).length = a.length := by
  unfold setFwd; cases h : a[x]? <;> simp

theorem getD_set_ne {f : List (Option Nat)} {i j : Nat} (p : Option Nat) (h : j ≠ i) :
    (f.set i p).getD j none = f.getD j none := by
  simp [List.getD_eq_getElem?_getD, List.getElem?_set_ne (Ne.symm h)]

theorem getD_set_self {f : List (Option Nat)} {i : Nat} (p : Option Nat) (h : i < f.length) :
    (f.set i p).getD i none = p := by
  simp [List.getD_eq_getElem?_getD, List.getElem?_set_self h]

theorem fwd_setFwd_ne (a : List (SLNode V)) {x i y j : Nat} (p : Option Nat)
    (h : y ≠ x ∨ j ≠ i) : fwd (setFwd a x i p) y j = fwd a y j := by
  unfold setFwd fwd
  cases hx : a[x]? with
  | none => rfl
  | some nd =>
    by_cases hyx : y = x
    · subst hyx
      have hlt : y < a.length := by
        by_contra hge
        rw [List.getElem?_eq_none (by omega)] at hx; exact Option.noConfusion hx
      rw [List.getElem?_set_self hlt, hx]
      have hj : j ≠ i := by tauto
      simp [List.getElem?_set_ne (Ne.symm hj)]
    · rw [List.getElem?_set_ne (fun h' => hyx h'.symm)]

theorem fwd_setFwd_self (a : List (SLNode V)) {x : Nat} {nd : SLNode V} (i : Nat)
    (p : Option Nat) (hx : a[x]? = some nd) (hi : i < nd.forward.length) :
    fwd (setFwd a x i p) x i = p := by
  unfold setFwd fwd
  rw [hx]
  have hlt : x < a.length := by
    by_contra hge
    rw [List.getElem?_eq_none (by omega)] at hx; exact Option.noConfusion hx
  rw [List.getElem?_set_self hlt]
  simp [List.getElem?_set_self hi]

theorem keyOf_setFwd (a : List (SLNode V)) (x i : Nat) (p : Option Nat) (y : Nat) :
    keyOf (setFwd a x i p) y = keyOf a y := by
  unfold setFwd keyOf
  cases hx : a[x]? with
  | none => rfl
  | some nd =>
    by_cases hyx : y = x
    · subst hyx
      have hlt : y < a.length := by
        by_contra hge
        rw [List.getElem?_eq_none (by omega)] at hx; exact Option.noConfusion hx
      rw [List.getElem?_set_self hlt, hx]
    · rw [List.getElem?_set_ne (fun h' => hyx h'.symm)]

theorem levOf_setFwd (a : List (SLNode V)) (x i : Nat) (p : Option Nat) (y : Nat) :
    levOf (setFwd a x i p) y = levOf a y := by
  unfold setFwd levOf
  cases hx : a[x]? with
  | none => rfl
  | some nd =>
    by_cases hyx : y = x
    · subst hyx
      have hlt : y < a.length := by
        by_contra hge
        rw [List.getElem?_eq_none (by omega)] at hx; exact Option.noConfusion hx
      rw [List.getElem?_set_self hlt, hx]
    · rw [List.getElem?_set_ne (fun h' => hyx h'.symm)]

theorem valOf_setFwd (a : List (SLNode V)) (x i : Nat) (p : Option Nat) (y : Nat) :
    valOf (setFwd a x i p) y = valOf a y := by
  unfold setFwd valOf
  cases hx : a[x]? with
  | none => rfl
  | some nd =>
    by_cases hyx : y = x
    · subst hyx
      have hlt : y < a.length := by
        by_contra hge
        rw [List.getElem?_eq_none (by omega)] at hx; exact Option.noConfusion hx
      rw [List.getElem?_set_self hlt, hx]
    · rw [List.getElem?_set_ne (fun h' => hyx h'.symm)]

theorem fwd_append (a : List (SLNode V)) (b : List (SLNode V)) {x : Nat}
    (h : x < a.length) (i : Nat) : fwd (a ++ b) x i = fwd a x i := by
  unfold fwd; rw [List.getElem?_append_left h]

theorem keyOf_append (a : List (SLNode V)) (b : List (SLNode V)) {x : Nat}
    (h : x < a.length) : keyOf (a ++ b) x = keyOf a x := by
  unfold keyOf; rw [List.getElem?_append_left h]

theorem levOf_append (a : List (SLNode V)) (b : List (SLNode V)) {x : Nat}
    (h : x < a.length) : levOf (a ++ b) x = levOf a x := by
  unfold levOf; rw [List.getElem?_append_left h]

theorem valOf_append (a : List (SLNode V)) (b : List (SLNode V)) {x : Nat}
    (h : x < a.length) : valOf (a ++ b) x = valOf a x := by
  unfold valOf; rw [List.getElem?_append_left h]

/-! ### Chain segments

`Seg a i p l q`: starting from pointer `p` and following `forward[i]`
pointers, one visits exactly the nodes of `l` and exits through pointer `q`
(`Seg a i p [] p` for the empty walk).  A full level-`i` chain from pointer
`p` is `Seg a i p l none`. -/

inductive Seg (a : List (SLNode V)) (i : Nat) : Option Nat → List Nat → Option Nat → Prop
  | nil (p : Option Nat) : Seg a i p [] p
  | cons {x : Nat} {l : List Nat} {q : Option Nat} :
      x < a.length → Seg a i (fwd a x i) l q → Seg a i (some x) (x :: l) q

theorem Seg.eq_of_nil {a : List (SLNode V)} {i : Nat} {p q : Option Nat}
    (h : Seg a i p [] q) : p = q := by cases h; rfl

theorem Seg.cons_elim {a : List (SLNode V)} {i x : Nat} {l : List Nat} {p q : Option Nat}
    (h : Seg a i p (x :: l) q) :
    p = some x ∧ x < a.length ∧ Seg a i (fwd a x i) l q := by
  cases h with
  | cons hx hs => exact ⟨rfl, hx, hs⟩

theorem Seg.append {a : List (SLNode V)} {i : Nat} {p q r : Option Nat}
    {l₁ l₂ : List Nat} (h₁ : Seg a i p l₁ q) (h₂ : Seg a i q l₂ r) :
    Seg a i p (l₁ ++ l₂) r := by
  induction h₁ with
  | nil => simpa using h₂
  | cons hx _ ih => exact Seg.cons hx (ih h₂)

theorem Seg.split {a : List (SLNode V)} {i : Nat} {p r : Option Nat}
    {l₁ l₂ : List Nat} (h : Seg a i p (l₁ ++ l₂) r) :
    ∃ q, Seg a i p l₁ q ∧ Seg a i q l₂ r := by
  induction l₁ generalizing p with
  | nil => exact ⟨p, Seg.nil p, h⟩
  | cons x t ih =>
    rw [List.cons_append] at h
    obtain ⟨hp, hx, hs⟩ := h.cons_elim
    obtain ⟨q, h₁, h₂⟩ := ih hs
    exact ⟨q, hp ▸ Seg.cons hx h₁, h₂⟩

theorem Seg.mem_lt {a : List (SLNode V)} {i : Nat} {p q : Option Nat} {l : List Nat}
    (h : Seg a i p l q) : ∀ x ∈ l, x < a.length := by
  induction h with
  | nil => intro x hx; cases hx
  | cons hx _ ih =>
    intro y hy
    rcases List.mem_cons.1 hy with rfl | hy
    · exact hx
    · exact ih y hy

theorem Seg.congr {a b : List (SLNode V)} {i : Nat} {p q : Option Nat} {l : List Nat}
    (hlen : a.length ≤ b.length) (hfwd : ∀ x ∈ l, fwd b x i = fwd a x i)
    (h : Seg a i p l q) : Seg b i p l q := by
  induction h with
  | nil => exact Seg.nil _
  | cons hx hs ih =>
    refine Seg.cons (by omega) ?_
    rw [hfwd _ (List.mem_cons_self _ _)]
    exact ih fun y hy => hfwd y (List.mem_cons_of_mem _ hy)

theorem getLastD_mem {l : List Nat} (hne : l ≠ []) (d : Nat) : l.getLastD d ∈ l := by
  induction l generalizing d with
  | nil => exact absurd rfl hne
  | cons x t ih =>
    cases t with
    | nil => simp
    | cons y u =>
      have := ih (d := x) (by simp)
      rw [List.getLastD_cons]
      exact List.mem_cons_of_mem _ this

theorem Seg.last_fwd {a : List (SLNode V)} {i : Nat} {p q : Option Nat} {l : List Nat}
    (h : Seg a i p l q) (hne : l ≠ []) : q = fwd a (l.getLastD 0) i := by
  induction h with
  | nil => exact absurd rfl hne
  | cons hx hs ih =>
    rename_i x l' q'
    cases l' with
    | nil => simpa using hs.eq_of_nil.symm
    | cons y t => simpa using ih (by simp)

theorem Seg.retarget {a b : List (SLNode V)} {i : Nat} {p q q' : Option Nat}
    {l : List Nat} (h : Seg a i p l q) (hne : l ≠ []) (hnd : l.Nodup)
    (hlen : a.length ≤ b.length)
    (hfwd : ∀ x ∈ l, x ≠ l.getLastD 0 → fwd b x i = fwd a x i)
    (hlast : fwd b (l.getLastD 0) i = q') :
    Seg b i p l q' := by
  induction h with
  | nil => exact absurd rfl hne
  | cons hx hs ih =>
    rename_i x l' q₀
    cases l' with
    | nil =>
      refine Seg.cons (by omega) ?_
      simp only [List.getLastD_cons, List.getLastD_nil] at hlast
      rw [hlast]; exact Seg.nil _
    | cons y t =>
      have hxlast : x ≠ (x :: y :: t).getLastD 0 := by
        intro hcontr
        have hmem : (x :: y :: t).getLastD 0 ∈ y :: t := by
          have : (y :: t).getLastD 0 ∈ y :: t := getLastD_mem (by simp) x
          simpa using this
        rw [← hcontr] at hmem
        exact (List.nodup_cons.1 hnd).1 hmem
      refine Seg.cons (by omega) ?_
      rw [hfwd _ (List.mem_cons_self _ _) hxlast]
      refine ih (by simp) (List.nodup_cons.1 hnd).2 ?_ ?_
      · intro z hz hzl
        refine hfwd _ (List.mem_cons_of_mem _ hz) ?_
        simpa using hzl
      · simpa using hlast

/-! ### The representation invariant -/

/-- The walk predicate of the search loops: `x.key < k`. -/
def beforeK (a : List (SLNode V)) (k : Int) (x : Nat) : Bool :=
  decide (keyOf a x < k)

/-- The nodes of the master (level-0) chain `L` that participate at level
`i`; under the nesting invariant this is exactly the level-`i` chain. -/
def chainAt (a : List (SLNode V)) (L : List Nat) (i : Nat) : List Nat :=
  L.filter (fun x => decide (i ≤ levOf a x))

/-- The last node of the search trail at a level whose chain is `C`: the last
node with key `< k`, the head (index 0) when there is none. -/
def predOf (a : List (SLNode V)) (k : Int) (C : List Nat) : Nat :=
  (C.takeWhile (beforeK a k)).getLastD 0

/-- The representation invariant tying a `SkipList` state to its master
chain `L`: the arena indices on the level-0 chain, in key order. -/
structure Inv (s : SkipList V) (L : List Nat) : Prop where
  headLt : 0 < s.arena.length
  fwdLen : ∀ nd ∈ s.arena, nd.forward.length = MAX_LAYER + 1
  chains : ∀ i : Nat, Seg s.arena i (fwd s.arena 0 i) (chainAt s.arena L i) none
  sorted : L.Pairwise (fun u v => keyOf s.arena u < keyOf s.arena v)
  posL : ∀ x ∈ L, 0 < x
  levLe : ∀ x ∈ L, levOf s.arena x ≤ s.level
  lvlLe : s.level ≤ MAX_LAYER
  tight : s.level = 0 ∨ fwd s.arena 0 s.level ≠ none
  sizeEq : s.size = L.length

theorem chainAt_zero (a : List (SLNode V)) (L : List Nat) : chainAt a L 0 = L := by
  simp [chainAt]

theorem chainAt_sublist (a : List (SLNode V)) (L : List Nat) (i : Nat) :
    (chainAt a L i).Sublist L := List.filter_sublist L

theorem mem_chainAt {a : List (SLNode V)} {L : List Nat} {i x : Nat} :
    x ∈ chainAt a L i ↔ x ∈ L ∧ i ≤ levOf a x := by
  simp [chainAt]

theorem chainAt_mono {a : List (SLNode V)} {L : List Nat} {i j x : Nat}
    (hij : i ≤ j) (hx : x ∈ chainAt a L j) : x ∈ chainAt a L i := by
  rw [mem_chainAt] at hx ⊢
  exact ⟨hx.1, le_trans hij hx.2⟩

theorem Inv.nodup {s : SkipList V} {L : List Nat} (h : Inv s L) : L.Nodup := by
  have h1 : (L.map (keyOf s.arena)).Pairwise (· < ·) := by
    rw [List.pairwise_map]; exact h.sorted
  have h2 : (L.map (keyOf s.arena)).Nodup := h1.imp fun hlt => ne_of_lt hlt
  exact h2.of_map _

theorem Inv.memLt {s : SkipList V} {L : List Nat} (h : Inv s L) :
    ∀ x ∈ L, x < s.arena.length := by
  have := (h.chains 0).mem_lt
  rw [chainAt_zero] at this
  exact this

theorem nodup_bounded_length {L : List Nat} {n : Nat} (hnd : L.Nodup)
    (hb : ∀ x ∈ L, x < n) : L.length ≤ n := by
  have hsub : L.toFinset ⊆ Finset.range n := by
    intro x hx
    rw [List.mem_toFinset] at hx
    exact Finset.mem_range.2 (hb x hx)
  have := Finset.card_le_card hsub
  rwa [List.toFinset_card_of_nodup hnd, Finset.card_range] at this

theorem Inv.len_le {s : SkipList V} {L : List Nat} (h : Inv s L) :
    L.length ≤ s.arena.length :=
  nodup_bounded_length h.nodup h.memLt

theorem getLastD_append_cons (u : List Nat) (x : Nat) (v : List Nat) (d : Nat) :
    (u ++ x :: v).getLastD d = v.getLastD x := by
  induction u generalizing d with
  | nil => rw [List.nil_append, List.getLastD_cons]
  | cons a u' ih => rw [List.cons_append, List.getLastD_cons]; exact ih a

/-! ### Correctness of the search loops -/

theorem advance_zero (a : List (SLNode V)) (k : Int) (i x : Nat) :
    advance a k i 0 x = x := rfl

theorem advance_succ (a : List (SLNode V)) (k : Int) (i fuel x : Nat) :
    advance a k i (fuel + 1) x =
      match fwd a x i with
      | none => x
      | some y =>
        match a[y]? with
        | none => x
        | some nd => if nd.key < k then advance a k i fuel y else x := rfl

/-- The inner loop, started at `x` with the remaining level-`i` chain `C`
hanging off `x`, stops at the last node of `C` whose key is `< k` (at `x`
itself if there is none), and the remaining chain there is the
corresponding suffix of `C`. -/
theorem advance_spec {a : List (SLNode V)} {k : Int} {i : Nat} :
    ∀ {C : List Nat} {x fuel : Nat},
      Seg a i (fwd a x i) C none → C.length ≤ fuel →
      advance a k i fuel x = (C.takeWhile (beforeK a k)).getLastD x ∧
      Seg a i (fwd a (advance a k i fuel x) i)
        (C.dropWhile (beforeK a k)) none := by
  intro C
  induction C with
  | nil =>
    intro x fuel hseg _
    have hx : fwd a x i = none := hseg.eq_of_nil
    have hadv : advance a k i fuel x = x := by
      cases fuel with
      | zero => rfl
      | succ f => rw [advance_succ, hx]
    rw [hadv]
    exact ⟨by simp, by rw [hx]; simpa using Seg.nil (V := V) none⟩
  | cons y C' ih =>
    intro x fuel hseg hfuel
    obtain ⟨hp, hy, hrest⟩ := hseg.cons_elim
    obtain ⟨f, rfl⟩ : ∃ f, fuel = f + 1 := by
      cases fuel with
      | zero => simp at hfuel
      | succ f => exact ⟨f, rfl⟩
    have hget : a[y]? = some a[y] := List.getElem?_eq_getElem hy
    have hkey : keyOf a y = a[y].key := by unfold keyOf; rw [hget]
    by_cases hlt : a[y].key < k
    · have hb : beforeK a k y = true := by
        unfold beforeK; rw [hkey]; exact decide_eq_true hlt
      have hadv : advance a k i (f + 1) x = advance a k i f y := by
        rw [advance_succ, hp]
        show (match a[y]? with
          | none => x
          | some nd => if nd.key < k then advance a k i f y else x) =
            advance a k i f y
        rw [hget]; simp [hlt]
      obtain ⟨ih1, ih2⟩ := ih hrest (by simpa using hfuel)
      rw [hadv, List.takeWhile_cons_of_pos hb, List.dropWhile_cons_of_pos hb,
        List.getLastD_cons]
      exact ⟨ih1, ih2⟩
    · have hb : beforeK a k y = false := by
        unfold beforeK; rw [hkey]; exact decide_eq_false hlt
      have hadv : advance a k i (f + 1) x = x := by
        rw [advance_succ, hp]
        show (match a[y]? with
          | none => x
          | some nd => if nd.key < k then advance a k i f y else x) = x
        rw [hget]; simp [hlt]
      rw [hadv, List.takeWhile_cons_of_neg (by simp [hb]),
        List.dropWhile_cons_of_neg (by simp [hb])]
      exact ⟨by simp, hseg⟩

theorem postX_eq (a : List (SLNode V)) (k : Int) (lvl j : Nat) (hj : j ≤ lvl) :
    postX a k lvl j =
      advance a k j a.length (if j < lvl then postX a k lvl (j + 1) else 0) := by
  unfold postX
  by_cases h : j < lvl
  · rw [if_pos h]
    have hd : lvl - j = (lvl - (j + 1)) + 1 := by omega
    rw [hd]
    show advance a k (lvl - ((lvl - (j + 1)) + 1)) a.length
      (postXD a k lvl (lvl - (j + 1))) = _
    have hlv : lvl - ((lvl - (j + 1)) + 1) = j := by omega
    rw [hlv]
  · have hjl : j = lvl := by omega
    subst hjl
    rw [if_neg h]
    have h0 : j - j = 0 := by omega
    rw [h0]
    rfl

theorem Inv.chain_len_le {s : SkipList V} {L : List Nat} (h : Inv s L) (i : Nat) :
    (chainAt s.arena L i).length ≤ s.arena.length :=
  le_trans (List.Sublist.length_le (chainAt_sublist _ _ _)) h.len_le

theorem Inv.chain_sorted {s : SkipList V} {L : List Nat} (h : Inv s L) (i : Nat) :
    (chainAt s.arena L i).Pairwise
      (fun u v => keyOf s.arena u < keyOf s.arena v) :=
  h.sorted.sublist (chainAt_sublist _ _ _)

/-- Correctness of the top-down search: the cursor recorded at level `j`
(as `update[j]`) is the last node of the level-`j` chain with key `< k`
(the head when there is none), and the level-`j` chain hanging off that
cursor is the suffix of nodes with key `≥ k`. -/
theorem postX_spec {s : SkipList V} {L : List Nat} (hInv : Inv s L) (k : Int) :
    ∀ d j, j + d = s.level →
      postX s.arena k s.level j = predOf s.arena k (chainAt s.arena L j) ∧
      Seg s.arena j (fwd s.arena (postX s.arena k s.level j) j)
        ((chainAt s.arena L j).dropWhile (beforeK s.arena k)) none := by
  intro d
  induction d with
  | zero =>
    intro j hj
    rw [Nat.add_zero] at hj
    subst hj
    rw [postX_eq _ _ _ _ (le_refl _), if_neg (lt_irrefl _)]
    exact advance_spec (hInv.chains _) (hInv.chain_len_le _)
  | succ d ih =>
    intro j hj
    have hjlt : j < s.level := by omega
    obtain ⟨ih1, _⟩ := ih (j + 1) (by omega)
    rw [postX_eq _ _ _ _ (by omega), if_pos hjlt, ih1]
    rcases hA1 : (chainAt s.arena L (j + 1)).takeWhile (beforeK s.arena k) with
      _ | ⟨a1, rest⟩
    · -- nothing at level j+1 was `< k`: the cursor is still the head
      have hx1 : predOf s.arena k (chainAt s.arena L (j + 1)) = 0 := by
        unfold predOf; rw [hA1]; rfl
      rw [hx1]
      exact advance_spec (hInv.chains _) (hInv.chain_len_le _)
    · -- the cursor is a genuine node `x₁` on the level-(j+1) chain
      set A1 := (chainAt s.arena L (j + 1)).takeWhile (beforeK s.arena k) with hA1def
      have hA1ne : A1 ≠ [] := by rw [hA1]; simp
      set x1 := predOf s.arena k (chainAt s.arena L (j + 1)) with hx1def
      have hx1mem : x1 ∈ A1 := by
        rw [hx1def]; unfold predOf; exact getLastD_mem hA1ne 0
      have hx1before : beforeK s.arena k x1 = true := List.mem_takeWhile_imp hx1mem
      have hx1memCj1 : x1 ∈ chainAt s.arena L (j + 1) :=
        (List.takeWhile_sublist _).mem hx1mem
      have hx1memCj : x1 ∈ chainAt s.arena L j :=
        chainAt_mono (by omega) hx1memCj1
      obtain ⟨A, B, hCj⟩ := List.append_of_mem hx1memCj
      have hsort := hInv.chain_sorted j
      rw [hCj] at hsort
      have hAlt : ∀ u ∈ A, keyOf s.arena u < keyOf s.arena x1 := by
        intro u hu
        exact (List.pairwise_append.1 hsort).2.2 u hu x1 (List.mem_cons_self _ _)
      have hApos : ∀ u ∈ A ++ [x1], beforeK s.arena k u = true := by
        intro u hu
        rcases List.mem_append.1 hu with hu | hu
        · unfold beforeK
          refine decide_eq_true ?_
          exact lt_trans (hAlt u hu) (of_decide_eq_true hx1before)
        · rw [List.mem_singleton.1 hu]; exact hx1before
      have hCj' : chainAt s.arena L j = (A ++ [x1]) ++ B := by
        rw [hCj, List.append_cons]
      have htake : (chainAt s.arena L j).takeWhile (beforeK s.arena k) =
          (A ++ [x1]) ++ B.takeWhile (beforeK s.arena k) := by
        rw [hCj', List.takeWhile_append_of_pos hApos]
      have hdrop : (chainAt s.arena L j).dropWhile (beforeK s.arena k) =
          B.dropWhile (beforeK s.arena k) := by
        rw [hCj', List.dropWhile_append_of_pos hApos]
      obtain ⟨q, hseg1, hseg2⟩ := (hCj' ▸ hInv.chains j).split
      have hq : q = fwd s.arena x1 j := by
        have := hseg1.last_fwd (by simp)
        rwa [getLastD_append_cons, List.getLastD_nil] at this
      have hBseg : Seg s.arena j (fwd s.arena x1 j) B none := hq ▸ hseg2
      have hBlen : B.length ≤ s.arena.length := by
        have h1 : B.length ≤ (chainAt s.arena L j).length := by
          rw [hCj]; simp; omega
        exact le_trans h1 (hInv.chain_len_le j)
      obtain ⟨hadv1, hadv2⟩ := advance_spec (k := k) hBseg hBlen
      constructor
      · rw [hadv1]
        unfold predOf
        rw [htake, ← List.append_cons, getLastD_append_cons]
      · rw [hdrop]
        exact hadv2

theorem search_final {s : SkipList V} {L : List Nat} (hInv : Inv s L) (k : Int) :
    postX s.arena k s.level 0 = predOf s.arena k L ∧
    Seg s.arena 0 (fwd s.arena (postX s.arena k s.level 0) 0)
      (L.dropWhile (beforeK s.arena k)) none := by
  have := postX_spec hInv k s.level 0 (by omega)
  rwa [chainAt_zero] at this

theorem mLookup_eq_none {m : List (Int × V)} {k : Int} (h : ∀ p ∈ m, p.1 ≠ k) :
    mLookup k m = none := by
  induction m with
  | nil => rfl
  | cons p t ih =>
    obtain ⟨k', v'⟩ := p
    show (if k = k' then some v' else mLookup k t) = none
    rw [if_neg fun he => h (k', v') (List.mem_cons_self _ _) he.symm]
    exact ih fun q hq => h q (List.mem_cons_of_mem _ hq)

theorem mLookup_dropWhile {a : List (SLNode V)} {L : List Nat} (k : Int)
    (hsort : L.Pairwise (fun u v => keyOf a u < keyOf a v)) :
    mLookup k (absL a L) =
      match (L.dropWhile (beforeK a k)).head? with
      | some y => if keyOf a y = k then some (valOf a y) else none
      | none => none := by
  induction L with
  | nil => rfl
  | cons x t ih =>
    by_cases hb : beforeK a k x = true
    · rw [List.dropWhile_cons_of_pos hb]
      have hk : k ≠ keyOf a x := ne_of_gt (of_decide_eq_true hb)
      show (if k = keyOf a x then some (valOf a x) else mLookup k (absL a t)) = _
      rw [if_neg hk]
      exact ih (List.Pairwise.of_cons hsort)
    · rw [List.dropWhile_cons_of_neg hb, List.head?_cons]
      have hge : ¬ keyOf a x < k := by
        intro hcontra
        exact hb (decide_eq_true hcontra)
      show (if k = keyOf a x then some (valOf a x) else mLookup k (absL a t)) =
        if keyOf a x = k then some (valOf a x) else none
      by_cases heq : k = keyOf a x
      · rw [if_pos heq, if_pos heq.symm]
      · rw [if_neg heq, if_neg fun h => heq h.symm]
        refine mLookup_eq_none ?_
        intro p hp
        obtain ⟨y, hy, rfl⟩ := List.mem_map.1 hp
        have hxy : keyOf a x < keyOf a y := (List.pairwise_cons.1 hsort).1 y hy
        show keyOf a y ≠ k
        intro hcontra
        exact hge (lt_of_lt_of_le hxy (le_of_eq hcontra))

/-- The level-0 candidate of a search for `k`: either the whole chain has
keys `< k` and the candidate pointer is `nil`, or the candidate is the first
node with key `≥ k`, matching `k` exactly when the model holds `k`. -/
theorem candidate_spec {s : SkipList V} {L : List Nat} (hInv : Inv s L) (k : Int) :
    (fwd s.arena (postX s.arena k s.level 0) 0 = none ∧
       L.dropWhile (beforeK s.arena k) = [] ∧
       mLookup k (absL s.arena L) = none) ∨
    (∃ y B, L.dropWhile (beforeK s.arena k) = y :: B ∧
       fwd s.arena (postX s.arena k s.level 0) 0 = some y ∧ y < s.arena.length ∧
       ((keyOf s.arena y ≠ k ∧ mLookup k (absL s.arena L) = none) ∨
        (keyOf s.arena y = k ∧
          mLookup k (absL s.arena L) = some (valOf s.arena y)))) := by
  obtain ⟨_, hseg⟩ := search_final hInv k
  have hlook := mLookup_dropWhile k hInv.sorted
  cases hd : L.dropWhile (beforeK s.arena k) with
  | nil =>
    rw [hd] at hseg hlook
    exact Or.inl ⟨hseg.eq_of_nil, rfl, hlook⟩
  | cons y B =>
    rw [hd] at hseg hlook
    obtain ⟨hp, hy, _⟩ := hseg.cons_elim
    refine Or.inr ⟨y, B, rfl, hp, hy, ?_⟩
    by_cases heq : keyOf s.arena y = k
    · exact Or.inr ⟨heq, by rw [hlook]; simp [heq]⟩
    · exact Or.inl ⟨heq, by rw [hlook]; simp [heq]⟩

/-- `Get` agrees with model lookup. -/
theorem Get_spec {s : SkipList V} {L : List Nat} (hInv : Inv s L) (k : Int) :
    Get s k =
      match mLookup k (absL s.arena L) with
      | some v => (v, true)
      | none => (default, false) := by
  rcases candidate_spec hInv k with ⟨hfwd, _, hlook⟩ |
    ⟨y, B, _, hfwd, hy, hcase⟩
  · show (match (fwd s.arena (postX s.arena k s.level 0) 0).bind
        (s.arena[·]?) with
      | some nd => if nd.key = k then (nd.value, true) else (default, false)
      | none => (default, false)) = _
    rw [hfwd, hlook]
    rfl
  · have hget : s.arena[y]? = some s.arena[y] := List.getElem?_eq_getElem hy
    have hkey : keyOf s.arena y = s.arena[y].key := by unfold keyOf; rw [hget]
    have hval : valOf s.arena y = s.arena[y].value := by unfold valOf; rw [hget]
    show (match (fwd s.arena (postX s.arena k s.level 0) 0).bind
        (s.arena[·]?) with
      | some nd => if nd.key = k then (nd.value, true) else (default, false)
      | none => (default, false)) = _
    rw [hfwd]
    show (match s.arena[y]? with
      | some nd => if nd.key = k then (nd.value, true) else (default, false)
      | none => (default, false)) = _
    rw [hget]
    show (if s.arena[y].key = k then (s.arena[y].value, true)
        else (default, false)) = _
    rcases hcase with ⟨hne, hlook⟩ | ⟨heq, hlook⟩
    · rw [hlook, if_neg (hkey ▸ hne)]
    · rw [hlook, if_pos (hkey ▸ heq), hval]

/-! ### Effect of the splice loop on the arena -/

theorem length_spliceStep (a : List (SLNode V)) (n pred i : Nat) :
    (spliceStep a n pred i).length = a.length := by
  unfold spliceStep; rw [length_setFwd, length_setFwd]

theorem keyOf_spliceStep (a : List (SLNode V)) (n pred i z : Nat) :
    keyOf (spliceStep a n pred i) z = keyOf a z := by
  unfold spliceStep; rw [keyOf_setFwd, keyOf_setFwd]

theorem levOf_spliceStep (a : List (SLNode V)) (n pred i z : Nat) :
    levOf (spliceStep a n pred i) z = levOf a z := by
  unfold spliceStep; rw [levOf_setFwd, levOf_setFwd]

theorem valOf_spliceStep (a : List (SLNode V)) (n pred i z : Nat) :
    valOf (spliceStep a n pred i) z = valOf a z := by
  unfold spliceStep; rw [valOf_setFwd, valOf_setFwd]

theorem fwdLen_setFwd {a : List (SLNode V)} {c : Nat}
    (h : ∀ nd ∈ a, nd.forward.length = c) (x i : Nat) (p : Option Nat) :
    ∀ nd ∈ setFwd a x i p, nd.forward.length = c := by
  intro nd hnd
  unfold setFwd at hnd
  cases hx : a[x]? with
  | none => rw [hx] at hnd; exact h nd hnd
  | some nd0 =>
    rw [hx] at hnd
    rcases List.mem_or_eq_of_mem_set hnd with h' | rfl
    · exact h nd h'
    · show (nd0.forward.set i p).length = c
      rw [List.length_set]
      exact h nd0 (List.getElem?_mem hx)

theorem fwdLen_spliceStep {a : List (SLNode V)} {c : Nat}
    (h : ∀ nd ∈ a, nd.forward.length = c) (n pred i : Nat) :
    ∀ nd ∈ spliceStep a n pred i, nd.forward.length = c :=
  fwdLen_setFwd (fwdLen_setFwd h _ _ _) _ _ _

theorem fwd_setFwd_self' {a : List (SLNode V)} {x : Nat} (i : Nat) (p : Option Nat)
    (hx : x < a.length) (hlen : ∀ nd ∈ a, nd.forward.length = MAX_LAYER + 1)
    (hi : i ≤ MAX_LAYER) : fwd (setFwd a x i p) x i = p := by
  have hget : a[x]? = some a[x] := List.getElem?_eq_getElem hx
  refine fwd_setFwd_self a i p hget ?_
  rw [hlen a[x] (List.getElem?_mem hget)]
  omega

theorem fwd_spliceStep_ne_level (a : List (SLNode V)) {n pred i z j : Nat}
    (h : j ≠ i) : fwd (spliceStep a n pred i) z j = fwd a z j := by
  unfold spliceStep
  rw [fwd_setFwd_ne _ _ (Or.inr h), fwd_setFwd_ne _ _ (Or.inr h)]

theorem fwd_spliceStep_other (a : List (SLNode V)) {n pred i z : Nat}
    (hzn : z ≠ n) (hzp : z ≠ pred) :
    fwd (spliceStep a n pred i) z i = fwd a z i := by
  unfold spliceStep
  rw [fwd_setFwd_ne _ _ (Or.inl hzp), fwd_setFwd_ne _ _ (Or.inl hzn)]

theorem fwd_spliceStep_pred {a : List (SLNode V)} {n pred i : Nat}
    (hpred : pred < a.length)
    (hlen : ∀ nd ∈ a, nd.forward.length = MAX_LAYER + 1) (hi : i ≤ MAX_LAYER) :
    fwd (spliceStep a n pred i) pred i = some n := by
  unfold spliceStep
  refine fwd_setFwd_self' i _ ?_ (fwdLen_setFwd hlen _ _ _) hi
  rw [length_setFwd]; exact hpred

theorem fwd_spliceStep_new {a : List (SLNode V)} {n pred i : Nat}
    (hn : n < a.length) (hne : pred ≠ n)
    (hlen : ∀ nd ∈ a, nd.forward.length = MAX_LAYER + 1) (hi : i ≤ MAX_LAYER) :
    fwd (spliceStep a n pred i) n i = fwd a pred i := by
  unfold spliceStep
  rw [fwd_setFwd_ne _ _ (Or.inl (Ne.symm hne))]
  exact fwd_setFwd_self' i _ hn hlen hi

theorem length_spliceTo (a : List (SLNode V)) (n : Nat) (updFn : Nat → Nat) :
    ∀ i, (spliceTo a n updFn i).length = a.length := by
  intro i
  induction i with
  | zero => exact length_spliceStep _ _ _ _
  | succ i ih => show (spliceStep _ _ _ _).length = _; rw [length_spliceStep, ih]

theorem keyOf_spliceTo (a : List (SLNode V)) (n : Nat) (updFn : Nat → Nat)
    (z : Nat) : ∀ i, keyOf (spliceTo a n updFn i) z = keyOf a z := by
  intro i
  induction i with
  | zero => exact keyOf_spliceStep _ _ _ _ _
  | succ i ih => show keyOf (spliceStep _ _ _ _) z = _; rw [keyOf_spliceStep, ih]

theorem levOf_spliceTo (a : List (SLNode V)) (n : Nat) (updFn : Nat → Nat)
    (z : Nat) : ∀ i, levOf (spliceTo a n updFn i) z = levOf a z := by
  intro i
  induction i with
  | zero => exact levOf_spliceStep _ _ _ _ _
  | succ i ih => show levOf (spliceStep _ _ _ _) z = _; rw [levOf_spliceStep, ih]

theorem valOf_spliceTo (a : List (SLNode V)) (n : Nat) (updFn : Nat → Nat)
    (z : Nat) : ∀ i, valOf (spliceTo a n updFn i) z = valOf a z := by
  intro i
  induction i with
  | zero => exact valOf_spliceStep _ _ _ _ _
  | succ i ih => show valOf (spliceStep _ _ _ _) z = _; rw [valOf_spliceStep, ih]

theorem fwdLen_spliceTo {a : List (SLNode V)}
    (h : ∀ nd ∈ a, nd.forward.length = MAX_LAYER + 1) (n : Nat)
    (updFn : Nat → Nat) : ∀ i, ∀ nd ∈ spliceTo a n updFn i,
      nd.forward.length = MAX_LAYER + 1 := by
  intro i
  induction i with
  | zero => exact fwdLen_spliceStep h _ _ _
  | succ i ih => exact fwdLen_spliceStep ih _ _ _

/-- Full characterisation of the splice loop's effect on forward pointers:
at each spliced level `j ≤ i`, the new node points where `update[j]` pointed
and `update[j]` points at the new node; everything else is untouched. -/
theorem fwd_spliceTo {a : List (SLNode V)} {n : Nat} {updFn : Nat → Nat}
    (hn : n < a.length) (hupd : ∀ j, updFn j < n)
    (hlen : ∀ nd ∈ a, nd.forward.length = MAX_LAYER + 1) :
    ∀ i, i ≤ MAX_LAYER → ∀ z j,
      fwd (spliceTo a n updFn i) z j =
        if j ≤ i ∧ z = n then fwd a (updFn j) j
        else if j ≤ i ∧ z = updFn j then some n
        else fwd a z j := by
  intro i
  induction i with
  | zero =>
    intro _ z j
    show fwd (spliceStep a n (updFn 0) 0) z j = _
    by_cases hj : j = 0
    · subst hj
      by_cases hz : z = n
      · subst hz
        rw [fwd_spliceStep_new hn (Nat.ne_of_lt (hupd 0)) hlen (by omega)]
        simp
      · by_cases hz' : z = updFn 0
        · subst hz'
          rw [fwd_spliceStep_pred (lt_trans (hupd 0) hn) hlen (by omega)]
          simp [hz]
        · rw [fwd_spliceStep_other a hz hz']
          simp [hz, hz']
    · rw [fwd_spliceStep_ne_level a hj]
      simp [hj]
  | succ i ih =>
    intro hle z j
    have ihle : i ≤ MAX_LAYER := by omega
    have hlen' : ∀ nd ∈ spliceTo a n updFn i, nd.forward.length = MAX_LAYER + 1 :=
      fwdLen_spliceTo hlen n updFn i
    have hlenEq : (spliceTo a n updFn i).length = a.length := length_spliceTo a n updFn i
    show fwd (spliceStep (spliceTo a n updFn i) n (updFn (i + 1)) (i + 1)) z j = _
    by_cases hj : j = i + 1
    · subst hj
      by_cases hz : z = n
      · rw [hz, fwd_spliceStep_new (by rw [hlenEq]; exact hn)
          (Nat.ne_of_lt (hupd (i + 1))) hlen' hle,
          ih ihle (updFn (i + 1)) (i + 1)]
        have h1 : ¬ (i + 1 ≤ i) := by omega
        have h2 : updFn (i + 1) ≠ n := Nat.ne_of_lt (hupd (i + 1))
        simp [h1, h2]
      · by_cases hz' : z = updFn (i + 1)
        · subst hz'
          rw [fwd_spliceStep_pred (by rw [hlenEq]; exact lt_trans (hupd (i + 1)) hn)
            hlen' hle]
          simp [hz]
        · rw [fwd_spliceStep_other _ hz hz', ih ihle z (i + 1)]
          have h1 : ¬ (i + 1 ≤ i) := by omega
          simp [h1, hz, hz']
    · rw [fwd_spliceStep_ne_level _ hj, ih ihle z j]
      by_cases hji : j ≤ i
      · have hji' : j ≤ i + 1 := by omega
        simp [hji, hji']
      · have hji' : ¬ j ≤ i + 1 := by omega
        simp [hji, hji']

/-! ### Sorted-chain bookkeeping -/

theorem sorted_takeWhile_eq_filter {a : List (SLNode V)} {k : Int} :
    ∀ {L : List Nat}, L.Pairwise (fun u v => keyOf a u < keyOf a v) →
      L.takeWhile (beforeK a k) = L.filter (beforeK a k) := by
  intro L
  induction L with
  | nil => intro _; rfl
  | cons x t ih =>
    intro hs
    by_cases hb : beforeK a k x = true
    · rw [List.takeWhile_cons_of_pos hb, List.filter_cons_of_pos hb,
        ih hs.of_cons]
    · rw [List.takeWhile_cons_of_neg (by simp [hb]),
        List.filter_cons_of_neg (by simp [hb])]
      have hxk : ¬ keyOf a x < k := fun hc => hb (decide_eq_true hc)
      refine (List.filter_eq_nil_iff.2 ?_).symm
      intro z hz hzb
      have hxz : keyOf a x < keyOf a z := (List.pairwise_cons.1 hs).1 z hz
      exact hxk (lt_trans hxz (of_decide_eq_true hzb))

theorem sorted_dropWhile_eq_filter {a : List (SLNode V)} {k : Int} :
    ∀ {L : List Nat}, L.Pairwise (fun u v => keyOf a u < keyOf a v) →
      L.dropWhile (beforeK a k) = L.filter (fun z => ! beforeK a k z) := by
  intro L
  induction L with
  | nil => intro _; rfl
  | cons x t ih =>
    intro hs
    by_cases hb : beforeK a k x = true
    · rw [List.dropWhile_cons_of_pos hb, List.filter_cons_of_neg (by simp [hb]),
        ih hs.of_cons]
    · rw [List.dropWhile_cons_of_neg (by simp [hb]),
        List.filter_cons_of_pos (by simp [hb])]
      have hxk : ¬ keyOf a x < k := fun hc => hb (decide_eq_true hc)
      refine congrArg (x :: ·) (List.filter_eq_self.2 ?_).symm
      intro z hz
      have hxz : keyOf a x < keyOf a z := (List.pairwise_cons.1 hs).1 z hz
      simp only [Bool.not_eq_true']
      refine decide_eq_false ?_
      intro hc
      exact hxk (lt_trans hxz hc)

theorem takeWhile_chainAt {a : List (SLNode V)} {k : Int} {L : List Nat}
    (hs : L.Pairwise (fun u v => keyOf a u < keyOf a v)) (i : Nat) :
    (chainAt a L i).takeWhile (beforeK a k) =
      chainAt a (L.takeWhile (beforeK a k)) i := by
  rw [sorted_takeWhile_eq_filter (hs.sublist (chainAt_sublist _ _ _)),
    sorted_takeWhile_eq_filter hs]
  unfold chainAt
  rw [List.filter_filter, List.filter_filter]
  exact List.filter_congr fun z _ => by rw [Bool.and_comm]

theorem dropWhile_chainAt {a : List (SLNode V)} {k : Int} {L : List Nat}
    (hs : L.Pairwise (fun u v => keyOf a u < keyOf a v)) (i : Nat) :
    (chainAt a L i).dropWhile (beforeK a k) =
      chainAt a (L.dropWhile (beforeK a k)) i := by
  rw [sorted_dropWhile_eq_filter (hs.sublist (chainAt_sublist _ _ _)),
    sorted_dropWhile_eq_filter hs]
  unfold chainAt
  rw [List.filter_filter, List.filter_filter]
  exact List.filter_congr fun z _ => by rw [Bool.and_comm]

theorem chainAt_eq_nil_of_high {s : SkipList V} {L : List Nat} (hInv : Inv s L)
    {i : Nat} (hi : s.level < i) : chainAt s.arena L i = [] := by
  refine List.filter_eq_nil_iff.2 ?_
  intro z hz hc
  have := hInv.levLe z hz
  have := of_decide_eq_true hc
  omega

theorem predOf_lt {a : List (SLNode V)} {k : Int} {C : List Nat}
    (h0 : 0 < a.length) (hC : ∀ z ∈ C, z < a.length) :
    predOf a k C < a.length := by
  unfold predOf
  rcases ht : C.takeWhile (beforeK a k) with _ | ⟨x, t⟩
  · simpa using h0
  · have hmem : (x :: t).getLastD 0 ∈ C.takeWhile (beforeK a k) := by
      rw [ht]; exact getLastD_mem (by simp) 0
    exact hC _ ((List.takeWhile_sublist _).mem hmem)

theorem upd_spec {s : SkipList V} {L : List Nat} (hInv : Inv s L) (k : Int)
    {j : Nat} (hj : j ≤ s.level) :
    postX s.arena k s.level j = predOf s.arena k (chainAt s.arena L j) ∧
    Seg s.arena j (fwd s.arena (postX s.arena k s.level j) j)
      ((chainAt s.arena L j).dropWhile (beforeK s.arena k)) none :=
  postX_spec hInv k (s.level - j) j (by omega)

/-! ### Model-level lemmas -/

theorem mInsert_append_lt {m1 m2 : List (Int × V)} {k : Int} (v : V)
    (h : ∀ p ∈ m1, p.1 < k) : mInsert k v (m1 ++ m2) = m1 ++ mInsert k v m2 := by
  induction m1 with
  | nil => rfl
  | cons p t ih =>
    obtain ⟨k', v'⟩ := p
    have hk' : k' < k := h (k', v') (List.mem_cons_self _ _)
    show (if k < k' then _ else if k = k' then _ else (k', v') :: mInsert k v (t ++ m2)) = _
    rw [if_neg (by omega), if_neg (by omega),
      ih fun q hq => h q (List.mem_cons_of_mem _ hq)]
    rfl

theorem mInsert_cons_self {k k' : Int} (v : V) {v' : V} {t : List (Int × V)}
    (heq : k' = k) : mInsert k v ((k', v') :: t) = (k, v) :: t := by
  show (if k < k' then _ else if k = k' then (k, v) :: t else _) = _
  rw [if_neg (by omega), if_pos heq.symm]

theorem mInsert_cons_gt {k k' : Int} (v : V) {v' : V} {t : List (Int × V)}
    (hlt : k < k') : mInsert k v ((k', v') :: t) = (k, v) :: (k', v') :: t := by
  show (if k < k' then (k, v) :: (k', v') :: t else _) = _
  rw [if_pos hlt]

theorem mDelete_append {m1 m2 : List (Int × V)} {k : Int}
    (h : ∀ p ∈ m1, p.1 ≠ k) : mDelete k (m1 ++ m2) = m1 ++ mDelete k m2 := by
  induction m1 with
  | nil => rfl
  | cons p t ih =>
    obtain ⟨k', v'⟩ := p
    have hk' : k' ≠ k := h (k', v') (List.mem_cons_self _ _)
    show (if k = k' then _ else (k', v') :: mDelete k (t ++ m2)) = _
    rw [if_neg (fun he => hk' he.symm),
      ih fun q hq => h q (List.mem_cons_of_mem _ hq)]
    rfl

theorem mDelete_cons_self {k k' : Int} {v' : V} {t : List (Int × V)}
    (heq : k' = k) : mDelete k ((k', v') :: t) = t := by
  show (if k = k' then t else _) = _
  rw [if_pos heq.symm]

theorem mDelete_of_lookup_none {m : List (Int × V)} {k : Int}
    (h : mLookup k m = none) : mDelete k m = m := by
  induction m with
  | nil => rfl
  | cons p t ih =>
    obtain ⟨k', v'⟩ := p
    have h' : (if k = k' then some v' else mLookup k t) = none := h
    by_cases hk : k = k'
    · rw [if_pos hk] at h'; exact absurd h' (by simp)
    · rw [if_neg hk] at h'
      show (if k = k' then t else (k', v') :: mDelete k t) = _
      rw [if_neg hk, ih h']

theorem mLookup_mInsert_self {m : List (Int × V)} (k : Int) (v : V) :
    mLookup k (mInsert k v m) = some v := by
  induction m with
  | nil => show (if k = k then some v else none) = some v; rw [if_pos rfl]
  | cons p t ih =>
    obtain ⟨k', v'⟩ := p
    show mLookup k (if k < k' then _ else if k = k' then _ else _) = some v
    by_cases h1 : k < k'
    · rw [if_pos h1]; show (if k = k then _ else _) = _; rw [if_pos rfl]
    · rw [if_neg h1]
      by_cases h2 : k = k'
      · rw [if_pos h2]; show (if k = k then _ else _) = _; rw [if_pos rfl]
      · rw [if_neg h2]
        show (if k = k' then some v' else mLookup k (mInsert k v t)) = _
        rw [if_neg h2, ih]

theorem mLookup_mInsert_ne {m : List (Int × V)} {k k' : Int} (v' : V)
    (h : k ≠ k') : mLookup k (mInsert k' v' m) = mLookup k m := by
  induction m with
  | nil =>
    show (if k = k' then some v' else none) = none
    rw [if_neg h]
  | cons p t ih =>
    obtain ⟨k'', v''⟩ := p
    show mLookup k (if k' < k'' then _ else if k' = k'' then _ else _) = _
    by_cases h1 : k' < k''
    · rw [if_pos h1]
      show (if k = k' then some v' else mLookup k ((k'', v'') :: t)) = _
      rw [if_neg h]
    · rw [if_neg h1]
      by_cases h2 : k' = k''
      · rw [if_pos h2]
        show (if k = k' then some v' else mLookup k t) = _
        rw [if_neg h]
        show _ = (if k = k'' then some v'' else mLookup k t)
        rw [if_neg (h2 ▸ h)]
      · rw [if_neg h2]
        show (if k = k'' then some v'' else mLookup k (mInsert k' v' t)) = _
        rw [ih]
        rfl

theorem mLookup_mDelete_ne {m : List (Int × V)} {k k' : Int}
    (h : k ≠ k') : mLookup k (mDelete k' m) = mLookup k m := by
  induction m with
  | nil => rfl
  | cons p t ih =>
    obtain ⟨k'', v''⟩ := p
    show mLookup k (if k' = k'' then t else (k'', v'') :: mDelete k' t) = _
    by_cases h2 : k' = k''
    · rw [if_pos h2]
      show _ = (if k = k'' then some v'' else mLookup k t)
      rw [if_neg (h2 ▸ h)]
    · rw [if_neg h2]
      show (if k = k'' then some v'' else mLookup k (mDelete k' t)) = _
      rw [ih]
      rfl

theorem keys_ne_of_mLookup_none {m : List (Int × V)} {k : Int}
    (h : mLookup k m = none) : ∀ p ∈ m, p.1 ≠ k := by
  induction m with
  | nil => intro p hp; cases hp
  | cons p t ih =>
    intro q hq
    obtain ⟨k', v'⟩ := p
    have h' : (if k = k' then some v' else mLookup k t) = none := h
    by_cases hk : k = k'
    · rw [if_pos hk] at h'; exact absurd h' (by simp)
    · rw [if_neg hk] at h'
      rcases List.mem_cons.1 hq with rfl | hq'
      · exact fun he => hk he.symm
      · exact ih h' q hq'

theorem keyOf_ne_of_mLookup_none {a : List (SLNode V)} {L : List Nat} {k : Int}
    (h : mLookup k (absL a L) = none) : ∀ z ∈ L, keyOf a z ≠ k := by
  intro z hz
  exact keys_ne_of_mLookup_none h (keyOf a z, valOf a z)
    (List.mem_map.2 ⟨z, hz, rfl⟩)

/-- Writing only the `value` field of node `y` changes no forward pointer. -/
theorem fwd_setVal {a : List (SLNode V)} {y : Nat} {nd : SLNode V} (v : V)
    (hy : a[y]? = some nd) (z i : Nat) :
    fwd (a.set y { nd with value := v }) z i = fwd a z i := by
  unfold fwd
  by_cases hzy : z = y
  · subst hzy
    have hlt : z < a.length := by
      by_contra hge
      rw [List.getElem?_eq_none (by omega)] at hy; exact Option.noConfusion hy
    rw [List.getElem?_set_self hlt, hy]
  · rw [List.getElem?_set_ne fun h' => hzy h'.symm]

theorem keyOf_setVal {a : List (SLNode V)} {y : Nat} {nd : SLNode V} (v : V)
    (hy : a[y]? = some nd) (z : Nat) :
    keyOf (a.set y { nd with value := v }) z = keyOf a z := by
  unfold keyOf
  by_cases hzy : z = y
  · subst hzy
    have hlt : z < a.length := by
      by_contra hge
      rw [List.getElem?_eq_none (by omega)] at hy; exact Option.noConfusion hy
    rw [List.getElem?_set_self hlt, hy]
  · rw [List.getElem?_set_ne fun h' => hzy h'.symm]

theorem levOf_setVal {a : List (SLNode V)} {y : Nat} {nd : SLNode V} (v : V)
    (hy : a[y]? = some nd) (z : Nat) :
    levOf (a.set y { nd with value := v }) z = levOf a z := by
  unfold levOf
  by_cases hzy : z = y
  · subst hzy
    have hlt : z < a.length := by
      by_contra hge
      rw [List.getElem?_eq_none (by omega)] at hy; exact Option.noConfusion hy
    rw [List.getElem?_set_self hlt, hy]
  · rw [List.getElem?_set_ne fun h' => hzy h'.symm]

theorem valOf_setVal_self {a : List (SLNode V)} {y : Nat} {nd : SLNode V} (v : V)
    (hy : a[y]? = some nd) :
    valOf (a.set y { nd with value := v }) y = v := by
  unfold valOf
  have hlt : y < a.length := by
    by_contra hge
    rw [List.getElem?_eq_none (by omega)] at hy; exact Option.noConfusion hy
  rw [List.getElem?_set_self hlt]

theorem valOf_setVal_ne {a : List (SLNode V)} {y : Nat} {nd : SLNode V} (v : V)
    {z : Nat} (hzy : z ≠ y) :
    valOf (a.set y { nd with value := v }) z = valOf a z := by
  unfold valOf
  rw [List.getElem?_set_ne fun h' => hzy h'.symm]

theorem Seg.fwd_ne_none {a : List (SLNode V)} {i : Nat} {p q : Option Nat}
    {l : List Nat} (h : Seg a i p l q) (hne : l ≠ []) : p ≠ none := by
  cases l with
  | nil => exact absurd rfl hne
  | cons x t => rw [h.cons_elim.1]; exact Option.noConfusion

theorem insertNew_def (s : SkipList V) (k : Int) (v : V) (lvl : Nat) :
    insertNew s k v lvl =
      { arena := spliceTo
          (s.arena ++ [{ forward := List.replicate (MAX_LAYER + 1) none
                         key := k, level := lvl, value := v }])
          s.arena.length
          (fun i => if i ≤ s.level then postX s.arena k s.level i else 0) lvl
        level := max s.level lvl
        size := s.size + 1 } := rfl

/-- Inserting a fresh key `k` with drawn level `lvl` preserves the
representation invariant: the new node is spliced at its sorted position in
the master chain, and the abstraction is model insertion. -/
theorem insertNew_spec {s : SkipList V} {L : List Nat} (hInv : Inv s L)
    {k : Int} (v : V) {lvl : Nat} (hlvl : lvl ≤ MAX_LAYER)
    (hnotin : mLookup k (absL s.arena L) = none) :
    Inv (insertNew s k v lvl)
      (L.takeWhile (beforeK s.arena k) ++
        s.arena.length :: L.dropWhile (beforeK s.arena k)) ∧
    absL (insertNew s k v lvl).arena
      (L.takeWhile (beforeK s.arena k) ++
        s.arena.length :: L.dropWhile (beforeK s.arena k)) =
      mInsert k v (absL s.arena L) := by
  set a := s.arena with ha
  set n := a.length with hn0
  set nd0 : SLNode V := { forward := List.replicate (MAX_LAYER + 1) none
                          key := k, level := lvl, value := v } with hnd0
  set a1 := a ++ [nd0] with ha1
  set updFn := fun i => if i ≤ s.level then postX a k s.level i else 0 with hupdFn
  set a2 := spliceTo a1 n updFn lvl with ha2
  set A0 := L.takeWhile (beforeK a k) with hA0
  set B0 := L.dropWhile (beforeK a k) with hB0
  have hIN : insertNew s k v lvl =
      { arena := a2, level := max s.level lvl, size := s.size + 1 } := rfl
  rw [hIN]
  -- basic arena facts
  have hna1 : a1.length = n + 1 := by rw [ha1]; simp
  have hnlt : n < a1.length := by omega
  have hna2 : a2.length = n + 1 := by rw [ha2, length_spliceTo, hna1]
  have hlen_mono : s.arena.length ≤ a2.length := by
    rw [hna2, hn0, ha]; omega
  have hn_lt_a2 : n < a2.length := by rw [hna2]; omega
  have hlen1 : ∀ nd ∈ a1, nd.forward.length = MAX_LAYER + 1 := by
    intro nd hnd
    rcases List.mem_append.1 hnd with h | h
    · exact hInv.fwdLen nd h
    · rw [List.mem_singleton.1 h, hnd0]; simp
  have hmemLt : ∀ z ∈ L, z < n := hInv.memLt
  have h0n : 0 < n := hInv.headLt
  have hupd_eq : ∀ i, updFn i = predOf a k (chainAt a L i) := by
    intro i
    by_cases hi : i ≤ s.level
    · rw [hupdFn]; simp only [if_pos hi]; exact (upd_spec hInv k hi).1
    · rw [hupdFn]; simp only [if_neg hi]
      rw [chainAt_eq_nil_of_high hInv (by omega)]
      rfl
  have hupd_lt : ∀ i, updFn i < n := by
    intro i
    rw [hupd_eq i]
    exact predOf_lt hInv.headLt
      (fun z hz => hInv.memLt z ((chainAt_sublist a L i).subset hz))
  have hfwd2 : ∀ z j, fwd a2 z j =
      if j ≤ lvl ∧ z = n then fwd a1 (updFn j) j
      else if j ≤ lvl ∧ z = updFn j then some n
      else fwd a1 z j := by
    intro z j
    rw [ha2]
    exact fwd_spliceTo hnlt hupd_lt hlen1 lvl hlvl z j
  have hfwd1old : ∀ z, z < n → ∀ j, fwd a1 z j = fwd a z j := by
    intro z hz j
    rw [ha1]; exact fwd_append a [nd0] hz j
  have ha1get : a1[n]? = some nd0 := by
    rw [ha1]; exact List.getElem?_concat_length a nd0
  have hfwd1n : ∀ j, fwd a1 n j = none := by
    intro j
    unfold fwd
    rw [ha1get, hnd0]
    show (List.replicate (MAX_LAYER + 1) (none : Option Nat)).getD j none = none
    rw [List.getD_eq_getElem?_getD, List.getElem?_replicate]
    split <;> rfl
  have hkey1 : ∀ z, keyOf a2 z = keyOf a1 z := by
    intro z; rw [ha2]; exact keyOf_spliceTo a1 n updFn z lvl
  have hlev1 : ∀ z, levOf a2 z = levOf a1 z := by
    intro z; rw [ha2]; exact levOf_spliceTo a1 n updFn z lvl
  have hval1 : ∀ z, valOf a2 z = valOf a1 z := by
    intro z; rw [ha2]; exact valOf_spliceTo a1 n updFn z lvl
  have hkey2old : ∀ z, z < n → keyOf a2 z = keyOf a z := by
    intro z hz; rw [hkey1 z, ha1]; exact keyOf_append a [nd0] hz
  have hlev2old : ∀ z, z < n → levOf a2 z = levOf a z := by
    intro z hz; rw [hlev1 z, ha1]; exact levOf_append a [nd0] hz
  have hval2old : ∀ z, z < n → valOf a2 z = valOf a z := by
    intro z hz; rw [hval1 z, ha1]; exact valOf_append a [nd0] hz
  have hkey2n : keyOf a2 n = k := by
    rw [hkey1 n]; unfold keyOf; rw [ha1get]
  have hlev2n : levOf a2 n = lvl := by
    rw [hlev1 n]; unfold levOf; rw [ha1get]
  have hval2n : valOf a2 n = v := by
    rw [hval1 n]; unfold valOf; rw [ha1get]
  -- key facts about the split of L
  have hLsplit : A0 ++ B0 = L := by
    rw [hA0, hB0]; exact List.takeWhile_append_dropWhile _ _
  have hndL : L.Nodup := hInv.nodup
  have hA0sub : ∀ z ∈ A0, z ∈ L := fun z hz => (List.takeWhile_sublist _).subset hz
  have hB0sub : ∀ z ∈ B0, z ∈ L := fun z hz => (List.dropWhile_sublist _).subset hz
  have hA0lt : ∀ z ∈ A0, keyOf a z < k := by
    intro z hz
    have hzA : z ∈ L.takeWhile (beforeK a k) := by rw [← hA0]; exact hz
    have hb : beforeK a k z = true := List.mem_takeWhile_imp hzA
    exact of_decide_eq_true hb
  have hkne := keyOf_ne_of_mLookup_none hnotin
  have hB0gt : ∀ z ∈ B0, k < keyOf a z := by
    intro z hz
    have hfz : z ∈ L.filter (fun w => ! beforeK a k w) := by
      rw [← sorted_dropWhile_eq_filter hInv.sorted]
      exact hz
    have h1 : ¬ keyOf a z < k := by
      have := List.of_mem_filter hfz
      simp only [Bool.not_eq_true'] at this
      exact of_decide_eq_false this
    have h2 : keyOf a z ≠ k := hkne z (hB0sub z hz)
    omega
  -- the spliced chain at every level `i ≤ lvl`
  have hchainLow : ∀ i, i ≤ lvl →
      Seg a2 i (fwd a2 0 i)
        ((chainAt a L i).takeWhile (beforeK a k) ++
          n :: (chainAt a L i).dropWhile (beforeK a k)) none := by
    intro i hi
    set Ai := (chainAt a L i).takeWhile (beforeK a k) with hAi
    set Bi := (chainAt a L i).dropWhile (beforeK a k) with hBi
    have hCi : Ai ++ Bi = chainAt a L i := by
      rw [hAi, hBi]; exact List.takeWhile_append_dropWhile _ _
    have hCiN : (chainAt a L i).Nodup := hndL.sublist (chainAt_sublist a L i)
    have hABnodup : (Ai ++ Bi).Nodup := by rw [hCi]; exact hCiN
    have hAisub : ∀ z ∈ Ai, z ∈ L := fun z hz =>
      (chainAt_sublist a L i).subset ((List.takeWhile_sublist _).subset hz)
    have hBisub : ∀ z ∈ Bi, z ∈ L := fun z hz =>
      (chainAt_sublist a L i).subset ((List.dropWhile_sublist _).subset hz)
    have hupdi : updFn i = Ai.getLastD 0 := by rw [hupd_eq i]; rfl
    have hsegCi : Seg a i (fwd a 0 i) (Ai ++ Bi) none := by
      rw [hCi]; exact hInv.chains i
    obtain ⟨q, segA, segB⟩ := hsegCi.split
    have hq : q = fwd a (updFn i) i := by
      by_cases hAe : Ai = []
      · rw [hAe] at segA
        rw [hupdi, hAe]
        exact segA.eq_of_nil.symm
      · rw [hupdi]
        exact segA.last_fwd hAe
    have hlastEq : (0 :: Ai).getLastD 0 = updFn i := by
      rw [List.getLastD_cons, hupdi]
    have h0A : Seg a2 i (some 0) (0 :: Ai) (some n) := by
      refine Seg.retarget (Seg.cons hInv.headLt segA) (by simp) ?_ hlen_mono ?_ ?_
      · rw [List.nodup_cons]
        refine ⟨fun h0 => ?_, (List.nodup_append.1 hABnodup).1⟩
        have := hInv.posL 0 (hAisub 0 h0)
        omega
      · intro z hz hzlast
        rw [hlastEq] at hzlast
        have hzn : z < n := by
          rcases List.mem_cons.1 hz with rfl | hz'
          · exact h0n
          · exact hmemLt z (hAisub z hz')
        rw [hfwd2 z i, if_neg (fun hcc => by omega), if_neg (fun hcc => hzlast hcc.2)]
        exact hfwd1old z hzn i
      · rw [hlastEq, hfwd2 (updFn i) i,
          if_neg (fun hcc => by have := hupd_lt i; omega),
          if_pos ⟨hi, rfl⟩]
    have hfwd2n : fwd a2 n i = q := by
      rw [hfwd2 n i, if_pos ⟨hi, rfl⟩, hq]
      exact hfwd1old (updFn i) (hupd_lt i) i
    have hdisj : List.Disjoint Ai Bi := (List.nodup_append.1 hABnodup).2.2
    have hBi2 : Seg a2 i q Bi none := by
      refine segB.congr hlen_mono ?_
      intro z hz
      have hzL : z ∈ L := hBisub z hz
      have hzn : z < n := hmemLt z hzL
      have hz0 : 0 < z := hInv.posL z hzL
      have hzupd : z ≠ updFn i := by
        by_cases hAe : Ai = []
        · rw [hupdi, hAe]
          show z ≠ List.getLastD [] 0
          rw [List.getLastD_nil]
          omega
        · rw [hupdi]
          intro hcontr
          have hmem : Ai.getLastD 0 ∈ Ai := getLastD_mem hAe 0
          rw [← hcontr] at hmem
          exact hdisj hmem hz
      rw [hfwd2 z i, if_neg (fun hcc => by omega), if_neg (fun hcc => hzupd hcc.2)]
      exact hfwd1old z hzn i
    have hsegN : Seg a2 i (some n) (n :: Bi) none := by
      refine Seg.cons hn_lt_a2 ?_
      rw [hfwd2n]
      exact hBi2
    have hfinal : Seg a2 i (some 0) (0 :: (Ai ++ n :: Bi)) none := by
      have := h0A.append hsegN
      rwa [List.cons_append] at this
    exact hfinal.cons_elim.2.2
  -- untouched chains at levels above `lvl`
  have hfwd2high : ∀ z j, lvl < j → z < n → fwd a2 z j = fwd a z j := by
    intro z j hj hz
    rw [hfwd2 z j, if_neg (fun hcc => by omega), if_neg (fun hcc => by omega)]
    exact hfwd1old z hz j
  have hchainHigh : ∀ i, lvl < i →
      Seg a2 i (fwd a2 0 i) (chainAt a L i) none := by
    intro i hi
    have h0 : fwd a2 0 i = fwd a 0 i := hfwd2high 0 i hi h0n
    rw [h0]
    refine (hInv.chains i).congr hlen_mono ?_
    intro z hz
    exact hfwd2high z i hi (hmemLt z ((chainAt_sublist a L i).subset hz))
  -- the new master chain and its level-wise filters
  have hfA0 : ∀ i, A0.filter (fun z => decide (i ≤ levOf a2 z)) = chainAt a A0 i := by
    intro i
    unfold chainAt
    exact List.filter_congr fun z hz => by
      rw [hlev2old z (hmemLt z (hA0sub z hz))]
  have hfB0 : ∀ i, B0.filter (fun z => decide (i ≤ levOf a2 z)) = chainAt a B0 i := by
    intro i
    unfold chainAt
    exact List.filter_congr fun z hz => by
      rw [hlev2old z (hmemLt z (hB0sub z hz))]
  have hchainAtL : ∀ i, chainAt a A0 i ++ chainAt a B0 i = chainAt a L i := by
    intro i
    unfold chainAt
    rw [← List.filter_append, hLsplit]
  have hchainAt2 : ∀ i, chainAt a2 (A0 ++ n :: B0) i =
      if i ≤ lvl then chainAt a A0 i ++ n :: chainAt a B0 i
      else chainAt a L i := by
    intro i
    have hL : chainAt a2 (A0 ++ n :: B0) i =
        chainAt a A0 i ++ List.filter (fun z => decide (i ≤ levOf a2 z)) (n :: B0) := by
      show List.filter _ (A0 ++ n :: B0) = _
      rw [List.filter_append, hfA0 i]
    by_cases hi : i ≤ lvl
    · rw [if_pos hi, hL,
        List.filter_cons_of_pos (by rw [hlev2n]; exact decide_eq_true hi), hfB0 i]
    · rw [if_neg hi, hL,
        List.filter_cons_of_neg (by rw [hlev2n]; simp [hi]), hfB0 i, hchainAtL i]
  refine ⟨?_, ?_⟩
  · -- the invariant for the new state
    refine ⟨?_, ?_, ?_, ?_, ?_, ?_, ?_, ?_, ?_⟩
    · show 0 < a2.length
      omega
    · show ∀ nd ∈ a2, nd.forward.length = MAX_LAYER + 1
      rw [ha2]
      exact fwdLen_spliceTo hlen1 n updFn lvl
    · -- chains
      intro i
      show Seg a2 i (fwd a2 0 i) (chainAt a2 (A0 ++ n :: B0) i) none
      rw [hchainAt2 i]
      by_cases hi : i ≤ lvl
      · rw [if_pos hi]
        have := hchainLow i hi
        rwa [takeWhile_chainAt hInv.sorted i, dropWhile_chainAt hInv.sorted i]
          at this
      · rw [if_neg hi]
        exact hchainHigh i (by omega)
    · -- sortedness of the new master chain
      show (A0 ++ n :: B0).Pairwise (fun u v => keyOf a2 u < keyOf a2 v)
      rw [List.pairwise_append]
      refine ⟨?_, ?_, ?_⟩
      · have hp : A0.Pairwise (fun u v => keyOf a u < keyOf a v) :=
          hInv.sorted.sublist (List.takeWhile_sublist _)
        refine hp.imp_of_mem ?_
        intro u w hu hw huv
        rwa [hkey2old u (hmemLt u (hA0sub u hu)),
          hkey2old w (hmemLt w (hA0sub w hw))]
      · rw [List.pairwise_cons]
        constructor
        · intro z hz
          rw [hkey2n, hkey2old z (hmemLt z (hB0sub z hz))]
          exact hB0gt z hz
        · have hp : B0.Pairwise (fun u v => keyOf a u < keyOf a v) :=
            hInv.sorted.sublist (List.dropWhile_sublist _)
          refine hp.imp_of_mem ?_
          intro u w hu hw huv
          rwa [hkey2old u (hmemLt u (hB0sub u hu)),
            hkey2old w (hmemLt w (hB0sub w hw))]
      · intro u hu b hb
        have hukey : keyOf a2 u < k := by
          rw [hkey2old u (hmemLt u (hA0sub u hu))]
          exact hA0lt u hu
        rcases List.mem_cons.1 hb with rfl | hb'
        · rwa [hkey2n]
        · rw [hkey2old b (hmemLt b (hB0sub b hb'))]
          exact lt_trans hukey (hB0gt b hb')
    · -- positivity
      intro z hz
      rcases List.mem_append.1 hz with h | h
      · exact hInv.posL z (hA0sub z h)
      · rcases List.mem_cons.1 h with rfl | h'
        · exact h0n
        · exact hInv.posL z (hB0sub z h')
    · -- levels bounded by the new current level
      intro z hz
      show levOf a2 z ≤ max s.level lvl
      rcases List.mem_append.1 hz with h | h
      · rw [hlev2old z (hmemLt z (hA0sub z h))]
        exact le_trans (hInv.levLe z (hA0sub z h)) (le_max_left _ _)
      · rcases List.mem_cons.1 h with rfl | h'
        · rw [hlev2n]; exact le_max_right _ _
        · rw [hlev2old z (hmemLt z (hB0sub z h'))]
          exact le_trans (hInv.levLe z (hB0sub z h')) (le_max_left _ _)
    · show max s.level lvl ≤ MAX_LAYER
      have := hInv.lvlLe
      omega
    · -- tightness of the current level
      show max s.level lvl = 0 ∨ fwd a2 0 (max s.level lvl) ≠ none
      by_cases hcase : s.level ≤ lvl
      · right
        have hmax : max s.level lvl = lvl := by omega
        rw [hmax]
        have hseg := hchainLow lvl (le_refl _)
        refine hseg.fwd_ne_none ?_
        intro hcontra
        have : n ∈ ((chainAt a L lvl).takeWhile (beforeK a k) ++
            n :: (chainAt a L lvl).dropWhile (beforeK a k)) := by
          exact List.mem_append.2 (Or.inr (List.mem_cons_self _ _))
        rw [hcontra] at this
        cases this
      · right
        have hmax : max s.level lvl = s.level := by omega
        rw [hmax]
        have hlvl_pos : s.level ≠ 0 := by omega
        rcases hInv.tight with h0 | hne
        · exact absurd h0 hlvl_pos
        · rw [hfwd2high 0 s.level (by omega) h0n]
          exact hne
    · -- size
      show s.size + 1 = (A0 ++ n :: B0).length
      rw [List.length_append, List.length_cons, hInv.sizeEq, ← hLsplit,
        List.length_append]
      omega
  · -- the abstraction is model insertion
    show absL a2 (A0 ++ n :: B0) = mInsert k v (absL a L)
    have habs2 : absL a2 (A0 ++ n :: B0) =
        absL a A0 ++ (k, v) :: absL a B0 := by
      unfold absL
      rw [List.map_append, List.map_cons]
      congr 1
      · exact List.map_congr_left fun z hz => by
          rw [hkey2old z (hmemLt z (hA0sub z hz)),
            hval2old z (hmemLt z (hA0sub z hz))]
      · congr 1
        · rw [hkey2n, hval2n]
        · exact List.map_congr_left fun z hz => by
            rw [hkey2old z (hmemLt z (hB0sub z hz)),
              hval2old z (hmemLt z (hB0sub z hz))]
    rw [habs2]
    have habsL : absL a L = absL a A0 ++ absL a B0 := by
      rw [← hLsplit]; unfold absL; rw [List.map_append]
    rw [habsL, mInsert_append_lt v (fun p hp => ?_)]
    · congr 1
      cases hB0c : B0 with
      | nil => rfl
      | cons y B' =>
        rw [show absL a (y :: B') = (keyOf a y, valOf a y) :: absL a B' from rfl,
          mInsert_cons_gt v (hB0gt y (by rw [hB0c]; exact List.mem_cons_self _ _))]
    · obtain ⟨z, hz, rfl⟩ := List.mem_map.1 hp
      exact hA0lt z hz

/-- Overwriting the value of the node that already holds key `k` preserves
the invariant with the same master chain, and refines model insertion. -/
theorem overwrite_spec {s : SkipList V} {L : List Nat} (hInv : Inv s L)
    {k : Int} (v : V) {y : Nat} {B : List Nat}
    (hdw : L.dropWhile (beforeK s.arena k) = y :: B)
    (hy : y < s.arena.length) (heq : keyOf s.arena y = k) :
    Inv { s with arena := s.arena.set y { s.arena[y] with value := v } } L ∧
    absL (s.arena.set y { s.arena[y] with value := v }) L =
      mInsert k v (absL s.arena L) := by
  have hget : s.arena[y]? = some s.arena[y] := List.getElem?_eq_getElem hy
  have hfwd' : ∀ z i, fwd (s.arena.set y { s.arena[y] with value := v }) z i =
      fwd s.arena z i := fwd_setVal v hget
  have hkey' : ∀ z, keyOf (s.arena.set y { s.arena[y] with value := v }) z =
      keyOf s.arena z := keyOf_setVal v hget
  have hlev' : ∀ z, levOf (s.arena.set y { s.arena[y] with value := v }) z =
      levOf s.arena z := levOf_setVal v hget
  have hlen' : (s.arena.set y { s.arena[y] with value := v }).length =
      s.arena.length := List.length_set _ _ _
  have hchainAt' : ∀ L0 i, chainAt (s.arena.set y { s.arena[y] with value := v }) L0 i =
      chainAt s.arena L0 i := by
    intro L0 i
    unfold chainAt
    exact List.filter_congr fun z _ => by rw [hlev' z]
  have hsplitL : L.takeWhile (beforeK s.arena k) ++ y :: B = L := by
    rw [← hdw]; exact List.takeWhile_append_dropWhile _ _
  have hndL := hInv.nodup
  have hndSplit : (L.takeWhile (beforeK s.arena k) ++ y :: B).Nodup := by
    rw [hsplitL]; exact hndL
  have hyA0 : y ∉ L.takeWhile (beforeK s.arena k) := by
    intro hcontr
    exact (List.nodup_append.1 hndSplit).2.2 hcontr (List.mem_cons_self _ _)
  have hyB : y ∉ B := (List.nodup_cons.1 (List.nodup_append.1 hndSplit).2.1).1
  have hA0lt : ∀ z ∈ L.takeWhile (beforeK s.arena k), keyOf s.arena z < k := by
    intro z hz
    have hb : beforeK s.arena k z = true := List.mem_takeWhile_imp hz
    exact of_decide_eq_true hb
  constructor
  · refine ⟨?_, ?_, ?_, ?_, hInv.posL, ?_, hInv.lvlLe, ?_, hInv.sizeEq⟩
    · show 0 < (s.arena.set y _).length
      rw [hlen']; exact hInv.headLt
    · intro nd hnd
      rcases List.mem_or_eq_of_mem_set hnd with h | rfl
      · exact hInv.fwdLen nd h
      · show s.arena[y].forward.length = MAX_LAYER + 1
        exact hInv.fwdLen _ (List.getElem?_mem hget)
    · intro i
      show Seg _ i (fwd _ 0 i) (chainAt _ L i) none
      rw [hfwd' 0 i, hchainAt' L i]
      refine (hInv.chains i).congr (by rw [hlen']) ?_
      intro z _
      exact hfwd' z i
    · refine hInv.sorted.imp_of_mem ?_
      intro u w _ _ huw
      rwa [hkey' u, hkey' w]
    · intro z hz
      show levOf _ z ≤ s.level
      rw [hlev' z]
      exact hInv.levLe z hz
    · rcases hInv.tight with h0 | hne
      · exact Or.inl h0
      · refine Or.inr ?_
        show fwd _ 0 s.level ≠ none
        rw [hfwd' 0 s.level]
        exact hne
  · have hval'A : ∀ z, z ≠ y →
        valOf (s.arena.set y { s.arena[y] with value := v }) z = valOf s.arena z :=
      fun z hz => valOf_setVal_ne v hz
    have habs0 : absL (s.arena.set y { s.arena[y] with value := v })
          (L.takeWhile (beforeK s.arena k) ++ y :: B) =
        absL s.arena (L.takeWhile (beforeK s.arena k)) ++ (k, v) :: absL s.arena B := by
      unfold absL
      rw [List.map_append, List.map_cons]
      congr 1
      · refine List.map_congr_left ?_
        intro z hz
        rw [hkey' z, hval'A z (fun hcc => hyA0 (hcc ▸ hz))]
      · congr 1
        · rw [hkey' y, heq, valOf_setVal_self v hget]
        · refine List.map_congr_left ?_
          intro z hz
          rw [hkey' z, hval'A z (fun hcc => hyB (hcc ▸ hz))]
    have habs1 : absL (s.arena.set y { s.arena[y] with value := v }) L =
        absL s.arena (L.takeWhile (beforeK s.arena k)) ++ (k, v) :: absL s.arena B := by
      conv_lhs => rw [← hsplitL]
      exact habs0
    have habs2' : mInsert k v
          (absL s.arena (L.takeWhile (beforeK s.arena k) ++ y :: B)) =
        absL s.arena (L.takeWhile (beforeK s.arena k)) ++ (k, v) :: absL s.arena B := by
      unfold absL
      rw [List.map_append, List.map_cons,
        mInsert_append_lt v (fun p hp => by
          obtain ⟨z, hz, rfl⟩ := List.mem_map.1 hp
          exact hA0lt z hz),
        mInsert_cons_self v heq]
    have habs2 : mInsert k v (absL s.arena L) =
        absL s.arena (L.takeWhile (beforeK s.arena k)) ++ (k, v) :: absL s.arena B := by
      conv_lhs => rw [← hsplitL]
      exact habs2'
    rw [habs1, habs2]

/-- `Insert` preserves the invariant and refines model insertion. -/
theorem Insert_spec {s : SkipList V} {L : List Nat} (hInv : Inv s L)
    (k : Int) (v : V) (g : Nat) :
    ∃ L', Inv (Insert s k v g) L' ∧
      absL (Insert s k v g).arena L' = mInsert k v (absL s.arena L) := by
  rcases candidate_spec hInv k with ⟨hfwd, hdw, hlook⟩ |
    ⟨y, B, hdw, hfwd, hy, hcase⟩
  · have hIns : Insert s k v g = insertNew s k v (min MAX_LAYER g) := by
      show (match fwd s.arena (postX s.arena k s.level 0) 0 with
        | some y =>
          match s.arena[y]? with
          | some nd =>
            if nd.key = k then
              { s with arena := s.arena.set y { nd with value := v } }
            else insertNew s k v (min MAX_LAYER g)
          | none => insertNew s k v (min MAX_LAYER g)
        | none => insertNew s k v (min MAX_LAYER g)) = _
      rw [hfwd]
    rw [hIns]
    obtain ⟨h1, h2⟩ := insertNew_spec hInv v (min_le_left _ _) hlook
    exact ⟨_, h1, h2⟩
  · have hget : s.arena[y]? = some s.arena[y] := List.getElem?_eq_getElem hy
    have hkeyY : keyOf s.arena y = s.arena[y].key := by unfold keyOf; rw [hget]
    rcases hcase with ⟨hne, hlook⟩ | ⟨heq, hlook⟩
    · have hIns : Insert s k v g = insertNew s k v (min MAX_LAYER g) := by
        show (match fwd s.arena (postX s.arena k s.level 0) 0 with
          | some y =>
            match s.arena[y]? with
            | some nd =>
              if nd.key = k then
                { s with arena := s.arena.set y { nd with value := v } }
              else insertNew s k v (min MAX_LAYER g)
            | none => insertNew s k v (min MAX_LAYER g)
          | none => insertNew s k v (min MAX_LAYER g)) = _
        rw [hfwd]
        show (match s.arena[y]? with
          | some nd =>
            if nd.key = k then
              { s with arena := s.arena.set y { nd with value := v } }
            else insertNew s k v (min MAX_LAYER g)
          | none => insertNew s k v (min MAX_LAYER g)) = _
        rw [hget]
        show (if s.arena[y].key = k then _ else insertNew s k v (min MAX_LAYER g)) = _
        rw [if_neg (hkeyY ▸ hne)]
      rw [hIns]
      obtain ⟨h1, h2⟩ := insertNew_spec hInv v (min_le_left _ _) hlook
      exact ⟨_, h1, h2⟩
    · have hIns : Insert s k v g =
          { s with arena := s.arena.set y { s.arena[y] with value := v } } := by
        show (match fwd s.arena (postX s.arena k s.level 0) 0 with
          | some y =>
            match s.arena[y]? with
            | some nd =>
              if nd.key = k then
                { s with arena := s.arena.set y { nd with value := v } }
              else insertNew s k v (min MAX_LAYER g)
            | none => insertNew s k v (min MAX_LAYER g)
          | none => insertNew s k v (min MAX_LAYER g)) = _
        rw [hfwd]
        show (match s.arena[y]? with
          | some nd =>
            if nd.key = k then
              { s with arena := s.arena.set y { nd with value := v } }
            else insertNew s k v (min MAX_LAYER g)
          | none => insertNew s k v (min MAX_LAYER g)) = _
        rw [hget]
        show (if s.arena[y].key = k then _ else _) = _
        rw [if_pos (hkeyY ▸ heq)]
      rw [hIns]
      obtain ⟨h1, h2⟩ := overwrite_spec hInv v hdw hy heq
      exact ⟨L, h1, h2⟩

/-! ### Effect of the unlink loop, level shrink and node recycling -/

theorem predOf_cases (a : List (SLNode V)) (k : Int) (C : List Nat) :
    predOf a k C = 0 ∨
      (predOf a k C ∈ C ∧ beforeK a k (predOf a k C) = true) := by
  unfold predOf
  rcases h : C.takeWhile (beforeK a k) with _ | ⟨x, t⟩
  · left; rfl
  · right
    have hmem : (x :: t).getLastD 0 ∈ C.takeWhile (beforeK a k) := by
      rw [h]; exact getLastD_mem (by simp) 0
    exact ⟨(List.takeWhile_sublist _).subset hmem, List.mem_takeWhile_imp hmem⟩

theorem shrink_le (a : List (SLNode V)) : ∀ l, shrink a l ≤ l := by
  intro l
  induction l with
  | zero => exact le_refl _
  | succ l ih =>
    show (if fwd a 0 (l + 1) = none then shrink a l else l + 1) ≤ l + 1
    split
    · omega
    · exact le_refl _

theorem shrink_ge (a : List (SLNode V)) :
    ∀ l m, m ≤ l → fwd a 0 m ≠ none → m ≤ shrink a l := by
  intro l
  induction l with
  | zero => intro m hm _; omega
  | succ l ih =>
    intro m hm hne
    show m ≤ if fwd a 0 (l + 1) = none then shrink a l else l + 1
    split
    · rename_i hnil
      refine ih m ?_ hne
      rcases Nat.lt_or_ge m (l + 1) with h | h
      · omega
      · exfalso
        have : m = l + 1 := by omega
        rw [this] at hne
        exact hne hnil
    · exact hm

theorem shrink_tight (a : List (SLNode V)) :
    ∀ l, shrink a l = 0 ∨ fwd a 0 (shrink a l) ≠ none := by
  intro l
  induction l with
  | zero => exact Or.inl rfl
  | succ l ih =>
    show shrink a (l + 1) = 0 ∨ fwd a 0 (shrink a (l + 1)) ≠ none
    have hdef : shrink a (l + 1) =
        if fwd a 0 (l + 1) = none then shrink a l else l + 1 := rfl
    by_cases hnil : fwd a 0 (l + 1) = none
    · rw [hdef, if_pos hnil]; exact ih
    · rw [hdef, if_neg hnil]; exact Or.inr hnil

theorem length_freeNode (a : List (SLNode V)) (y : Nat) :
    (freeNode a y).length = a.length := List.length_set _ _ _

theorem fwd_freeNode_self {a : List (SLNode V)} {y : Nat} (hy : y < a.length)
    (i : Nat) : fwd (freeNode a y) y i = none := by
  unfold freeNode fwd
  rw [List.getElem?_set_self hy]
  show (List.replicate (MAX_LAYER + 1) (none : Option Nat)).getD i none = none
  rw [List.getD_eq_getElem?_getD, List.getElem?_replicate]
  split <;> rfl

theorem fwd_freeNode_ne (a : List (SLNode V)) {y z : Nat} (h : z ≠ y) (i : Nat) :
    fwd (freeNode a y) z i = fwd a z i := by
  unfold freeNode fwd
  rw [List.getElem?_set_ne fun h' => h h'.symm]

theorem keyOf_freeNode_ne (a : List (SLNode V)) {y z : Nat} (h : z ≠ y) :
    keyOf (freeNode a y) z = keyOf a z := by
  unfold freeNode keyOf
  rw [List.getElem?_set_ne fun h' => h h'.symm]

theorem levOf_freeNode_ne (a : List (SLNode V)) {y z : Nat} (h : z ≠ y) :
    levOf (freeNode a y) z = levOf a z := by
  unfold freeNode levOf
  rw [List.getElem?_set_ne fun h' => h h'.symm]

theorem valOf_freeNode_ne (a : List (SLNode V)) {y z : Nat} (h : z ≠ y) :
    valOf (freeNode a y) z = valOf a z := by
  unfold freeNode valOf
  rw [List.getElem?_set_ne fun h' => h h'.symm]

theorem fwdLen_freeNode {a : List (SLNode V)}
    (h : ∀ nd ∈ a, nd.forward.length = MAX_LAYER + 1) (y : Nat) :
    ∀ nd ∈ freeNode a y, nd.forward.length = MAX_LAYER + 1 := by
  intro nd hnd
  rcases List.mem_or_eq_of_mem_set hnd with h' | rfl
  · exact h nd h'
  · simp

theorem unlinkFrom_zero (a : List (SLNode V)) (updFn : Nat → Nat) (x i : Nat) :
    unlinkFrom a updFn x i 0 = a := rfl

theorem unlinkFrom_succ (a : List (SLNode V)) (updFn : Nat → Nat) (x i rem : Nat) :
    unlinkFrom a updFn x i (rem + 1) =
      if fwd a (updFn i) i = some x then
        unlinkFrom (setFwd a (updFn i) i (fwd a x i)) updFn x (i + 1) rem
      else a := rfl

/-- Full characterisation of the unlink loop of `Delete`: exactly the levels
`0 ..= levOf a y` (the levels where the victim actually participates) get
their predecessor's forward pointer redirected past `y`; the loop breaks at
the first higher level and everything else is untouched. -/
theorem unlinkFrom_spec {a : List (SLNode V)} {updFn : Nat → Nat} {y lvl : Nat}
    (hylev : levOf a y ≤ lvl) (hlvl : lvl ≤ MAX_LAYER)
    (hupd_lt : ∀ j, j ≤ lvl → updFn j < a.length)
    (hupd_ne : ∀ j, j ≤ lvl → updFn j ≠ y)
    (hF1 : ∀ i, i ≤ levOf a y → fwd a (updFn i) i = some y)
    (hF3 : ∀ i, levOf a y < i → i ≤ lvl → fwd a (updFn i) i ≠ some y) :
    ∀ rem i a', i + rem = lvl + 1 → i ≤ levOf a y + 1 →
      a'.length = a.length →
      (∀ nd ∈ a', nd.forward.length = MAX_LAYER + 1) →
      (∀ z, keyOf a' z = keyOf a z) →
      (∀ z, levOf a' z = levOf a z) →
      (∀ z, valOf a' z = valOf a z) →
      (∀ z j, fwd a' z j =
        if j < i ∧ z = updFn j then fwd a y j else fwd a z j) →
      ((unlinkFrom a' updFn y i rem).length = a.length ∧
       (∀ nd ∈ unlinkFrom a' updFn y i rem,
         nd.forward.length = MAX_LAYER + 1) ∧
       (∀ z, keyOf (unlinkFrom a' updFn y i rem) z = keyOf a z) ∧
       (∀ z, levOf (unlinkFrom a' updFn y i rem) z = levOf a z) ∧
       (∀ z, valOf (unlinkFrom a' updFn y i rem) z = valOf a z) ∧
       (∀ z j, fwd (unlinkFrom a' updFn y i rem) z j =
         if j ≤ levOf a y ∧ z = updFn j then fwd a y j else fwd a z j)) := by
  intro rem
  induction rem with
  | zero =>
    intro i a' hsum hile hlen hfl hkey hlev hval hchar
    have hi : i = levOf a y + 1 := by omega
    rw [unlinkFrom_zero]
    refine ⟨hlen, hfl, hkey, hlev, hval, ?_⟩
    intro z j
    rw [hchar z j, hi]
    by_cases hc : j ≤ levOf a y ∧ z = updFn j
    · rw [if_pos ⟨by omega, hc.2⟩, if_pos hc]
    · rw [if_neg (fun hcc => hc ⟨by omega, hcc.2⟩), if_neg hc]
  | succ rem ih =>
    intro i a' hsum hile hlen hfl hkey hlev hval hchar
    have hilvl : i ≤ lvl := by omega
    have hcheck : fwd a' (updFn i) i = fwd a (updFn i) i := by
      rw [hchar (updFn i) i, if_neg (fun hcc => by omega)]
    by_cases hiy : i ≤ levOf a y
    · -- the victim participates at level `i`: unlink and continue
      have hcond : fwd a' (updFn i) i = some y := by
        rw [hcheck]; exact hF1 i hiy
      rw [unlinkFrom_succ, if_pos hcond]
      have hfy : fwd a' y i = fwd a y i := by
        rw [hchar y i, if_neg (fun hcc => by omega)]
      have hsetlen : (setFwd a' (updFn i) i (fwd a' y i)).length = a.length := by
        rw [length_setFwd]; exact hlen
      refine ih (i + 1) (setFwd a' (updFn i) i (fwd a' y i)) (by omega)
        (by omega) hsetlen (fwdLen_setFwd hfl _ _ _)
        (fun z => by rw [keyOf_setFwd]; exact hkey z)
        (fun z => by rw [levOf_setFwd]; exact hlev z)
        (fun z => by rw [valOf_setFwd]; exact hval z)
        ?_
      intro z j
      by_cases hz : z = updFn i ∧ j = i
      · obtain ⟨rfl, rfl⟩ : z = updFn i ∧ j = i := hz
        rw [fwd_setFwd_self' j _ (by rw [hlen]; exact hupd_lt j hilvl) hfl
          (by omega), hfy]
        rw [if_pos ⟨by omega, rfl⟩]
      · have hor : z ≠ updFn i ∨ j ≠ i := by tauto
        rw [fwd_setFwd_ne _ _ hor, hchar z j]
        by_cases hc : j < i ∧ z = updFn j
        · rw [if_pos hc, if_pos ⟨by omega, hc.2⟩]
        · have hc2 : ¬ (j < i + 1 ∧ z = updFn j) := by
            intro hcc
            rcases Nat.lt_or_ge j i with hji | hji
            · exact hc ⟨hji, hcc.2⟩
            · have : j = i := by omega
              subst this
              rcases hor with h1 | h2
              · exact h1 hcc.2
              · exact h2 rfl
          rw [if_neg hc, if_neg hc2]
    · -- the victim does not participate here: the loop breaks
      have hcond : fwd a' (updFn i) i ≠ some y := by
        rw [hcheck]; exact hF3 i (by omega) hilvl
      rw [unlinkFrom_succ, if_neg hcond]
      have hi : i = levOf a y + 1 := by omega
      refine ⟨hlen, hfl, hkey, hlev, hval, ?_⟩
      intro z j
      rw [hchar z j, hi]
      by_cases hc : j ≤ levOf a y ∧ z = updFn j
      · rw [if_pos ⟨by omega, hc.2⟩, if_pos hc]
      · rw [if_neg (fun hcc => hc ⟨by omega, hcc.2⟩), if_neg hc]

/-- Deleting a present key preserves the invariant: the victim is unlinked
from every level it participates in, the current level shrinks tightly, and
the abstraction is model deletion. -/
theorem Delete_found_spec {s : SkipList V} {L : List Nat} (hInv : Inv s L)
    {k : Int} {y : Nat} {B : List Nat}
    (hdw : L.dropWhile (beforeK s.arena k) = y :: B)
    (hy : y < s.arena.length) (heq : keyOf s.arena y = k) :
    (Delete s k).2 = true ∧
    Inv (Delete s k).1 (L.takeWhile (beforeK s.arena k) ++ B) ∧
    absL (Delete s k).1.arena (L.takeWhile (beforeK s.arena k) ++ B) =
      mDelete k (absL s.arena L) := by
  set a := s.arena with ha
  set updFn := fun i => postX a k s.level i with hupdFn
  set A0 := L.takeWhile (beforeK a k) with hA0
  set u := unlinkFrom a updFn y 0 (s.level + 1) with hu0
  set a2 := freeNode u y with ha2def
  set lev' := shrink u s.level with hlev'
  -- the taken branch
  have hsearch := (search_final hInv k).2
  rw [hdw] at hsearch
  obtain ⟨hfwdx, _, _⟩ := hsearch.cons_elim
  have hget : a[y]? = some a[y] := List.getElem?_eq_getElem hy
  have hkeyY : keyOf a y = a[y].key := by unfold keyOf; rw [hget]
  have hDel : Delete s k =
      ({ arena := a2, level := lev', size := s.size - 1 }, true) := by
    show (match fwd a (postX a k s.level 0) 0 with
      | some y =>
        match a[y]? with
        | some nd =>
          if nd.key = k then
            (({ arena := freeNode (unlinkFrom a updFn y 0 (s.level + 1)) y
                level := shrink (unlinkFrom a updFn y 0 (s.level + 1)) s.level
                size := s.size - 1 } : SkipList V), true)
          else (s, false)
        | none => (s, false)
      | none => (s, false)) = _
    rw [hfwdx]
    show (match a[y]? with
      | some nd =>
        if nd.key = k then
          (({ arena := freeNode (unlinkFrom a updFn y 0 (s.level + 1)) y
              level := shrink (unlinkFrom a updFn y 0 (s.level + 1)) s.level
              size := s.size - 1 } : SkipList V), true)
        else (s, false)
      | none => (s, false)) = _
    rw [hget]
    show (if a[y].key = k then
        (({ arena := freeNode (unlinkFrom a updFn y 0 (s.level + 1)) y
            level := shrink (unlinkFrom a updFn y 0 (s.level + 1)) s.level
            size := s.size - 1 } : SkipList V), true)
      else (s, false)) = _
    rw [if_pos (hkeyY ▸ heq)]
  rw [hDel]
  refine ⟨rfl, ?_⟩
  -- basic facts
  have hsplitL : A0 ++ y :: B = L := by
    rw [hA0, ← hdw]; exact List.takeWhile_append_dropWhile _ _
  have hyL : y ∈ L := by rw [← hsplitL]; exact List.mem_append.2 (Or.inr (List.mem_cons_self _ _))
  have hylev : levOf a y ≤ s.level := hInv.levLe y hyL
  have hy0 : 0 < y := hInv.posL y hyL
  have hndL := hInv.nodup
  have hndSplit : (A0 ++ y :: B).Nodup := by rw [hsplitL]; exact hndL
  have hyA0 : y ∉ A0 := fun hcontr =>
    (List.nodup_append.1 hndSplit).2.2 hcontr (List.mem_cons_self _ _)
  have hyB : y ∉ B := (List.nodup_cons.1 (List.nodup_append.1 hndSplit).2.1).1
  have hA0lt : ∀ z ∈ A0, keyOf a z < k := by
    intro z hz
    have hzA : z ∈ L.takeWhile (beforeK a k) := by rw [← hA0]; exact hz
    have hb : beforeK a k z = true := List.mem_takeWhile_imp hzA
    exact of_decide_eq_true hb
  have hsortSplit : (A0 ++ y :: B).Pairwise (fun w z => keyOf a w < keyOf a z) := by
    rw [hsplitL]; exact hInv.sorted
  have hkB : ∀ z ∈ B, k < keyOf a z := by
    intro z hz
    have := (List.pairwise_cons.1 (List.pairwise_append.1 hsortSplit).2.1).1 z hz
    rwa [heq] at this
  have hA0sub : ∀ z ∈ A0, z ∈ L := by
    intro z hz; rw [← hsplitL]; exact List.mem_append.2 (Or.inl hz)
  have hBsub : ∀ z ∈ B, z ∈ L := by
    intro z hz
    rw [← hsplitL]
    exact List.mem_append.2 (Or.inr (List.mem_cons_of_mem _ hz))
  -- update trail facts
  have hupdP : ∀ j, j ≤ s.level → updFn j = predOf a k (chainAt a L j) :=
    fun j hj => (upd_spec hInv k hj).1
  have hupd_lt : ∀ j, j ≤ s.level → updFn j < a.length := by
    intro j hj
    rw [hupdP j hj]
    exact predOf_lt hInv.headLt
      (fun z hz => hInv.memLt z ((chainAt_sublist a L j).subset hz))
  have hupd_ne : ∀ j, j ≤ s.level → updFn j ≠ y := by
    intro j hj
    rw [hupdP j hj]
    rcases predOf_cases a k (chainAt a L j) with h0 | ⟨_, hbef⟩
    · rw [h0]; omega
    · intro hcontr
      rw [hcontr] at hbef
      have := of_decide_eq_true hbef
      omega
  -- the level-wise shape of the chains around the victim
  have hchainAtL : ∀ i, chainAt a L i = chainAt a (A0 ++ y :: B) i := by
    intro i; rw [hsplitL]
  have hCi_mid : ∀ i, i ≤ levOf a y →
      chainAt a L i = chainAt a A0 i ++ y :: chainAt a B i := by
    intro i hi
    rw [hchainAtL i]
    unfold chainAt
    rw [List.filter_append,
      List.filter_cons_of_pos (p := fun x => decide (i ≤ levOf a x))
        (decide_eq_true hi)]
  have hCi_high : ∀ i, levOf a y < i →
      chainAt a L i = chainAt a A0 i ++ chainAt a B i := by
    intro i hi
    rw [hchainAtL i]
    unfold chainAt
    rw [List.filter_append,
      List.filter_cons_of_neg (p := fun x => decide (i ≤ levOf a x))
        (by simp; omega)]
  have hAiBef : ∀ i, ∀ z ∈ chainAt a A0 i, beforeK a k z = true := by
    intro i z hz
    exact decide_eq_true (hA0lt z ((chainAt_sublist a A0 i).subset hz))
  have hupdi : ∀ i, i ≤ levOf a y → updFn i = (chainAt a A0 i).getLastD 0 := by
    intro i hi
    rw [hupdP i (by omega)]
    unfold predOf
    rw [hCi_mid i hi, List.takeWhile_append_of_pos (hAiBef i),
      List.takeWhile_cons_of_neg (by rw [show beforeK a k y = decide (keyOf a y < k) from rfl, heq]; simp),
      List.append_nil]
  have hF1 : ∀ i, i ≤ levOf a y → fwd a (updFn i) i = some y := by
    intro i hi
    have hseg := (upd_spec hInv k (show i ≤ s.level by omega)).2
    rw [dropWhile_chainAt hInv.sorted i, hdw] at hseg
    have hcons : chainAt a (y :: B) i = y :: chainAt a B i := by
      unfold chainAt
      rw [List.filter_cons_of_pos (p := fun x => decide (i ≤ levOf a x))
        (decide_eq_true hi)]
    rw [hcons] at hseg
    exact hseg.cons_elim.1
  have hF3 : ∀ i, levOf a y < i → i ≤ s.level → fwd a (updFn i) i ≠ some y := by
    intro i hi hile
    show fwd a (postX a k s.level i) i ≠ some y
    have hseg := (upd_spec hInv k hile).2
    rw [dropWhile_chainAt hInv.sorted i, hdw] at hseg
    have hcons : chainAt a (y :: B) i = chainAt a B i := by
      unfold chainAt
      rw [List.filter_cons_of_neg (p := fun x => decide (i ≤ levOf a x))
        (by simp; omega)]
    rw [hcons] at hseg
    rcases hBi : chainAt a B i with _ | ⟨z, t⟩
    · rw [hBi] at hseg
      rw [hseg.eq_of_nil]
      simp
    · rw [hBi] at hseg
      rw [hseg.cons_elim.1]
      intro hcontr
      have hzy : z = y := by injection hcontr
      have hzB : z ∈ B := (chainAt_sublist a B i).subset
        (by rw [hBi]; exact List.mem_cons_self _ _)
      rw [hzy] at hzB
      exact hyB hzB
  -- run the unlink loop
  obtain ⟨hulen, hufl, hukey, hulev, huval, huf⟩ :=
    unlinkFrom_spec hylev hInv.lvlLe hupd_lt hupd_ne hF1 hF3
      (s.level + 1) 0 a (by omega) (by omega) rfl hInv.fwdLen
      (fun z => rfl) (fun z => rfl) (fun z => rfl)
      (fun z j => by rw [if_neg (fun hcc => by omega)])
  -- accessors of the final arena
  have ha2len : a2.length = a.length := by
    rw [ha2def, length_freeNode, hu0, hulen]
  have hlen_mono2 : a.length ≤ a2.length := le_of_eq ha2len.symm
  have hfwd2ne : ∀ z j, z ≠ y → fwd a2 z j =
      (if j ≤ levOf a y ∧ z = updFn j then fwd a y j else fwd a z j) := by
    intro z j hz
    rw [ha2def, fwd_freeNode_ne u hz, huf z j]
  have hkey2 : ∀ z, z ≠ y → keyOf a2 z = keyOf a z := by
    intro z hz
    rw [ha2def, keyOf_freeNode_ne u hz, hukey z]
  have hlev2 : ∀ z, z ≠ y → levOf a2 z = levOf a z := by
    intro z hz
    rw [ha2def, levOf_freeNode_ne u hz, hulev z]
  have hval2 : ∀ z, z ≠ y → valOf a2 z = valOf a z := by
    intro z hz
    rw [ha2def, valOf_freeNode_ne u hz, huval z]
  have hfwd2_0 : ∀ j, fwd a2 0 j = fwd u 0 j := by
    intro j
    rw [ha2def, fwd_freeNode_ne u (by omega)]
  -- the new chains
  have hL'ne_y : ∀ z, z ∈ A0 ++ B → z ≠ y := by
    intro z hz
    rcases List.mem_append.1 hz with h | h
    · exact fun hcc => hyA0 (hcc ▸ h)
    · exact fun hcc => hyB (hcc ▸ h)
  have hchainAt2 : ∀ i, chainAt a2 (A0 ++ B) i =
      chainAt a A0 i ++ chainAt a B i := by
    intro i
    unfold chainAt
    rw [List.filter_append]
    congr 1
    · exact List.filter_congr fun z hz => by
        rw [hlev2 z (fun hcc => hyA0 (hcc ▸ hz))]
    · exact List.filter_congr fun z hz => by
        rw [hlev2 z (fun hcc => hyB (hcc ▸ hz))]
  have hchains2 : ∀ i, Seg a2 i (fwd a2 0 i)
      (chainAt a A0 i ++ chainAt a B i) none := by
    intro i
    by_cases hi : i ≤ levOf a y
    · -- the victim was on this chain: it has been cut out
      have hsegFull : Seg a i (fwd a 0 i)
          (chainAt a A0 i ++ y :: chainAt a B i) none := by
        rw [← hCi_mid i hi]; exact hInv.chains i
      obtain ⟨q, segA, segYB⟩ := hsegFull.split
      obtain ⟨hqy, _, segB⟩ := segYB.cons_elim
      have hCnodup : (chainAt a A0 i ++ y :: chainAt a B i).Nodup := by
        rw [← hCi_mid i hi]
        exact hndL.sublist (chainAt_sublist a L i)
      have hAiNodup : (chainAt a A0 i).Nodup := (List.nodup_append.1 hCnodup).1
      have hAidisj := (List.nodup_append.1 hCnodup).2.2
      have hupdi' := hupdi i hi
      have h0A : Seg a2 i (some 0) (0 :: chainAt a A0 i) (fwd a y i) := by
        refine Seg.retarget (Seg.cons hInv.headLt segA) (by simp) ?_ hlen_mono2 ?_ ?_
        · rw [List.nodup_cons]
          refine ⟨fun h0 => ?_, hAiNodup⟩
          have := hInv.posL 0 (hA0sub 0 ((chainAt_sublist a A0 i).subset h0))
          omega
        · intro z hz hzlast
          rw [List.getLastD_cons, ← hupdi'] at hzlast
          have hzy : z ≠ y := by
            rcases List.mem_cons.1 hz with rfl | hz'
            · omega
            · intro hcc
              exact hyA0 (hcc ▸ (chainAt_sublist a A0 i).subset hz')
          rw [hfwd2ne z i hzy, if_neg (fun hcc => hzlast hcc.2)]
        · rw [List.getLastD_cons, ← hupdi',
            hfwd2ne (updFn i) i (hupd_ne i (by omega)),
            if_pos ⟨hi, rfl⟩]
      have segB2 : Seg a2 i (fwd a y i) (chainAt a B i) none := by
        refine segB.congr hlen_mono2 ?_
        intro z hz
        have hzB : z ∈ B := (chainAt_sublist a B i).subset hz
        have hzy : z ≠ y := fun hcc => hyB (hcc ▸ hzB)
        have hzupd : z ≠ updFn i := by
          rw [hupdi']
          by_cases hAe : chainAt a A0 i = []
          · rw [hAe]
            show z ≠ List.getLastD [] 0
            rw [List.getLastD_nil]
            have := hInv.posL z (hBsub z hzB)
            omega
          · intro hcontr
            have hmem : (chainAt a A0 i).getLastD 0 ∈ chainAt a A0 i :=
              getLastD_mem hAe 0
            rw [← hcontr] at hmem
            exact hAidisj hmem (List.mem_cons_of_mem _ hz)
        rw [hfwd2ne z i hzy, if_neg (fun hcc => hzupd hcc.2)]
      have hfinal : Seg a2 i (some 0)
          (0 :: (chainAt a A0 i ++ chainAt a B i)) none := by
        have := h0A.append segB2
        rwa [List.cons_append] at this
      exact hfinal.cons_elim.2.2
    · -- the victim was not on this chain: nothing changed
      have hsegFull : Seg a i (fwd a 0 i)
          (chainAt a A0 i ++ chainAt a B i) none := by
        rw [← hCi_high i (by omega)]; exact hInv.chains i
      have h00 : fwd a2 0 i = fwd a 0 i := by
        rw [hfwd2ne 0 i (by omega), if_neg (fun hcc => by omega)]
      rw [h00]
      refine hsegFull.congr hlen_mono2 ?_
      intro z hz
      have hzy : z ≠ y := by
        rcases List.mem_append.1 hz with h | h
        · exact fun hcc => hyA0 (hcc ▸ (chainAt_sublist a A0 i).subset h)
        · exact fun hcc => hyB (hcc ▸ (chainAt_sublist a B i).subset h)
      rw [hfwd2ne z i hzy, if_neg (fun hcc => by omega)]
  refine ⟨⟨?_, ?_, ?_, ?_, ?_, ?_, ?_, ?_, ?_⟩, ?_⟩
  · show 0 < a2.length
    have := hInv.headLt
    omega
  · show ∀ nd ∈ a2, nd.forward.length = MAX_LAYER + 1
    rw [ha2def]
    exact fwdLen_freeNode hufl y
  · intro i
    show Seg a2 i (fwd a2 0 i) (chainAt a2 (A0 ++ B) i) none
    rw [hchainAt2 i]
    exact hchains2 i
  · show (A0 ++ B).Pairwise (fun w z => keyOf a2 w < keyOf a2 z)
    have hsub : (A0 ++ B).Sublist (A0 ++ y :: B) :=
      List.Sublist.append_left (List.sublist_cons_self _ _) A0
    have hp : (A0 ++ B).Pairwise (fun w z => keyOf a w < keyOf a z) :=
      hsortSplit.sublist hsub
    refine hp.imp_of_mem ?_
    intro w z hw hz hwz
    rwa [hkey2 w (hL'ne_y w hw), hkey2 z (hL'ne_y z hz)]
  · intro z hz
    rcases List.mem_append.1 hz with h | h
    · exact hInv.posL z (hA0sub z h)
    · exact hInv.posL z (hBsub z h)
  · -- levels bounded by the (shrunk) current level
    intro z hz
    show levOf a2 z ≤ lev'
    have hzy := hL'ne_y z hz
    rw [hlev2 z hzy]
    have hzL : z ∈ L := by
      rcases List.mem_append.1 hz with h | h
      · exact hA0sub z h
      · exact hBsub z h
    have hm : levOf a z ≤ s.level := hInv.levLe z hzL
    refine shrink_ge u s.level (levOf a z) hm ?_
    have hzchain : z ∈ chainAt a2 (A0 ++ B) (levOf a z) := by
      rw [mem_chainAt]
      exact ⟨hz, by rw [hlev2 z hzy]⟩
    have hne : chainAt a A0 (levOf a z) ++ chainAt a B (levOf a z) ≠ [] := by
      rw [← hchainAt2]
      exact List.ne_nil_of_mem hzchain
    have := (hchains2 (levOf a z)).fwd_ne_none hne
    rwa [hfwd2_0 (levOf a z)] at this
  · show lev' ≤ MAX_LAYER
    have h1 : lev' ≤ s.level := shrink_le u s.level
    have := hInv.lvlLe
    omega
  · show lev' = 0 ∨ fwd a2 0 lev' ≠ none
    rcases shrink_tight u s.level with h0 | hne
    · exact Or.inl h0
    · refine Or.inr ?_
      rw [hfwd2_0 lev']
      exact hne
  · show s.size - 1 = (A0 ++ B).length
    have h1 : L.length = A0.length + (B.length + 1) := by
      rw [← hsplitL]; simp
    rw [hInv.sizeEq, List.length_append]
    omega
  · -- abstraction: model deletion
    show absL a2 (A0 ++ B) = mDelete k (absL a L)
    have habs1 : absL a2 (A0 ++ B) = absL a A0 ++ absL a B := by
      unfold absL
      rw [List.map_append]
      congr 1
      · refine List.map_congr_left ?_
        intro z hz
        rw [hkey2 z (fun hcc => hyA0 (hcc ▸ hz)),
          hval2 z (fun hcc => hyA0 (hcc ▸ hz))]
      · refine List.map_congr_left ?_
        intro z hz
        rw [hkey2 z (fun hcc => hyB (hcc ▸ hz)),
          hval2 z (fun hcc => hyB (hcc ▸ hz))]
    have habs2 : mDelete k (absL a L) = absL a A0 ++ absL a B := by
      conv_lhs => rw [← hsplitL]
      show mDelete k (absL a (A0 ++ y :: B)) = _
      unfold absL
      rw [List.map_append, List.map_cons,
        mDelete_append (fun p hp => by
          obtain ⟨z, hz, rfl⟩ := List.mem_map.1 hp
          exact ne_of_lt (hA0lt z hz)),
        mDelete_cons_self heq]
    rw [habs1, habs2]

/-- Deleting an absent key is the identity and reports `false`. -/
theorem Delete_absent {s : SkipList V} {L : List Nat} (hInv : Inv s L) {k : Int}
    (hlook : mLookup k (absL s.arena L) = none) : Delete s k = (s, false) := by
  rcases candidate_spec hInv k with ⟨hfwd, _, _⟩ |
    ⟨y, B, hdw, hfwd, hy, hcase⟩
  · show (match fwd s.arena (postX s.arena k s.level 0) 0 with
      | some y =>
        match s.arena[y]? with
        | some nd =>
          if nd.key = k then
            (({ arena := freeNode (unlinkFrom s.arena
                  (fun i => postX s.arena k s.level i) y 0 (s.level + 1)) y
                level := shrink (unlinkFrom s.arena
                  (fun i => postX s.arena k s.level i) y 0 (s.level + 1)) s.level
                size := s.size - 1 } : SkipList V), true)
          else (s, false)
        | none => (s, false)
      | none => (s, false)) = _
    rw [hfwd]
  · rcases hcase with ⟨hne, _⟩ | ⟨_, hlook2⟩
    · have hget : s.arena[y]? = some s.arena[y] := List.getElem?_eq_getElem hy
      have hkeyY : keyOf s.arena y = s.arena[y].key := by unfold keyOf; rw [hget]
      show (match fwd s.arena (postX s.arena k s.level 0) 0 with
        | some y =>
          match s.arena[y]? with
          | some nd =>
            if nd.key = k then
              (({ arena := freeNode (unlinkFrom s.arena
                    (fun i => postX s.arena k s.level i) y 0 (s.level + 1)) y
                  level := shrink (unlinkFrom s.arena
                    (fun i => postX s.arena k s.level i) y 0 (s.level + 1)) s.level
                  size := s.size - 1 } : SkipList V), true)
            else (s, false)
          | none => (s, false)
        | none => (s, false)) = _
      rw [hfwd]
      show (match s.arena[y]? with
        | some nd =>
          if nd.key = k then _
          else (s, false)
        | none => (s, false)) = _
      rw [hget]
      show (if s.arena[y].key = k then _ else (s, false)) = _
      rw [if_neg (hkeyY ▸ hne)]
    · rw [hlook2] at hlook
      exact absurd hlook (by simp)

/-- `Delete` preserves the invariant and refines model deletion; its boolean
result reports whether the key was present. -/
theorem Delete_spec {s : SkipList V} {L : List Nat} (hInv : Inv s L) (k : Int) :
    ((Delete s k).2 = true ↔ mLookup k (absL s.arena L) ≠ none) ∧
    (mLookup k (absL s.arena L) = none → Delete s k = (s, false)) ∧
    ∃ L', Inv (Delete s k).1 L' ∧
      absL (Delete s k).1.arena L' = mDelete k (absL s.arena L) := by
  by_cases hlook : mLookup k (absL s.arena L) = none
  · have hid := Delete_absent hInv hlook
    refine ⟨?_, fun _ => hid, L, ?_, ?_⟩
    · rw [hid]
      simp [hlook]
    · rw [hid]; exact hInv
    · rw [hid, mDelete_of_lookup_none hlook]
  · rcases candidate_spec hInv k with ⟨_, _, hl⟩ | ⟨y, B, hdw, _, hy, hcase⟩
    · exact absurd hl hlook
    · rcases hcase with ⟨_, hl⟩ | ⟨heq, _⟩
      · exact absurd hl hlook
      · obtain ⟨hb, hInv', habs⟩ := Delete_found_spec hInv hdw hy heq
        exact ⟨⟨fun _ => hlook, fun _ => hb⟩, fun hcc => absurd hcc hlook,
          _, hInv', habs⟩

/-! ### The reachable-state theorem and observable behaviour -/

theorem Inv.len_lt {s : SkipList V} {L : List Nat} (h : Inv s L) :
    L.length < s.arena.length := by
  have hsub : L.toFinset ⊆ Finset.Ico 1 s.arena.length := by
    intro x hx
    rw [List.mem_toFinset] at hx
    exact Finset.mem_Ico.2 ⟨h.posL x hx, h.memLt x hx⟩
  have hcard := Finset.card_le_card hsub
  rw [List.toFinset_card_of_nodup h.nodup, Nat.card_Ico] at hcard
  have := h.headLt
  omega

theorem absL_sorted {s : SkipList V} {L : List Nat} (hInv : Inv s L) :
    (absL s.arena L).Pairwise (fun p q => p.1 < q.1) := by
  unfold absL
  rw [List.pairwise_map]
  exact hInv.sorted

theorem Size_abs {s : SkipList V} {L : List Nat} (hInv : Inv s L) :
    Size s = (absL s.arena L).length := by
  unfold Size absL
  rw [hInv.sizeEq, List.length_map]

theorem mLookup_mDelete_self {m : List (Int × V)} (k : Int)
    (hs : m.Pairwise (fun p q => p.1 < q.1)) :
    mLookup k (mDelete k m) = none := by
  induction m with
  | nil => rfl
  | cons p t ih =>
    obtain ⟨k', v'⟩ := p
    show mLookup k (if k = k' then t else (k', v') :: mDelete k t) = none
    by_cases hk : k = k'
    · rw [if_pos hk]
      refine mLookup_eq_none ?_
      intro q hq
      have := (List.pairwise_cons.1 hs).1 q hq
      omega
    · rw [if_neg hk]
      show (if k = k' then some v' else mLookup k (mDelete k t)) = none
      rw [if_neg hk]
      exact ih (List.Pairwise.of_cons hs)

theorem mDelete_length {m : List (Int × V)} {k : Int}
    (h : mLookup k m ≠ none) : (mDelete k m).length + 1 = m.length := by
  induction m with
  | nil => exact absurd rfl h
  | cons p t ih =>
    obtain ⟨k', v'⟩ := p
    show (if k = k' then t else (k', v') :: mDelete k t).length + 1 = t.length + 1
    by_cases hk : k = k'
    · rw [if_pos hk]
    · rw [if_neg hk]
      have h' : mLookup k t ≠ none := by
        intro hcc
        refine h ?_
        show (if k = k' then some v' else mLookup k t) = none
        rw [if_neg hk]; exact hcc
      rw [List.length_cons, ih h']

/-- The invariant holds for a fresh skip list. -/
theorem CreateSkipList_inv : Inv (CreateSkipList : SkipList V) [] := by
  refine ⟨by simp [CreateSkipList], ?_, ?_, List.Pairwise.nil,
    fun x hx => absurd hx (List.not_mem_nil x),
    fun x hx => absurd hx (List.not_mem_nil x),
    by simp [CreateSkipList, MAX_LAYER], Or.inl rfl, rfl⟩
  · intro nd hnd
    rcases List.mem_singleton.1 hnd with rfl
    simp
  · intro i
    show Seg _ i (fwd _ 0 i) (chainAt _ [] i) none
    have hfwd : fwd (CreateSkipList : SkipList V).arena 0 i = none := by
      show (List.replicate (MAX_LAYER + 1) (none : Option Nat)).getD i none = none
      rw [List.getD_eq_getElem?_getD, List.getElem?_replicate]
      split <;> rfl
    rw [hfwd]
    show Seg _ i none (List.filter _ []) none
    exact Seg.nil none

/-- Folding any operation sequence from an invariant state lands in an
invariant state whose abstraction is the model fold. -/
theorem foldl_spec (ops : List (Op V)) :
    ∀ (s : SkipList V) (L : List Nat), Inv s L →
      ∃ L', Inv (ops.foldl applyOp s) L' ∧
        absL (ops.foldl applyOp s).arena L' =
          ops.foldl mStep (absL s.arena L) := by
  induction ops with
  | nil => intro s L h; exact ⟨L, h, rfl⟩
  | cons op t ih =>
    intro s L h
    cases op with
    | ins k v g =>
      obtain ⟨L1, h1, habs1⟩ := Insert_spec h k v g
      obtain ⟨L', h', habs'⟩ := ih (Insert s k v g) L1 h1
      refine ⟨L', h', ?_⟩
      rw [List.foldl_cons, List.foldl_cons]
      show absL (t.foldl applyOp (Insert s k v g)).arena L' =
        t.foldl mStep (mInsert k v (absL s.arena L))
      rw [habs', habs1]
    | del k =>
      obtain ⟨-, -, L1, h1, habs1⟩ := Delete_spec h k
      obtain ⟨L', h', habs'⟩ := ih (Delete s k).1 L1 h1
      refine ⟨L', h', ?_⟩
      rw [List.foldl_cons, List.foldl_cons]
      show absL (t.foldl applyOp (Delete s k).1).arena L' =
        t.foldl mStep (mDelete k (absL s.arena L))
      rw [habs', habs1]

/-- Every reachable state carries the representation invariant and abstracts
to the model run. -/
theorem run_spec (ops : List (Op V)) :
    ∃ L, Inv (run ops) L ∧ absL (run ops).arena L = mRun ops := by
  obtain ⟨L, h, habs⟩ := foldl_spec ops CreateSkipList [] CreateSkipList_inv
  exact ⟨L, h, habs⟩

theorem chainList_eq_of_seg {a : List (SLNode V)} {i : Nat} {p q : Option Nat}
    {l : List Nat} (h : Seg a i p l q) (hq : q = none) :
    ∀ fuel, l.length < fuel → chainList a i fuel p = l := by
  induction h with
  | nil p =>
    subst hq
    intro fuel hf
    match fuel, hf with
    | f + 1, _ => rfl
  | cons hx hs ih =>
    intro fuel hf
    match fuel, hf with
    | f + 1, hf =>
      show _ :: chainList a i f _ = _
      rw [ih hq f (by simpa using hf)]

theorem levelChain_spec {s : SkipList V} {L : List Nat} (hInv : Inv s L)
    (i : Nat) : levelChain s i = chainAt s.arena L i := by
  unfold levelChain
  refine chainList_eq_of_seg (hInv.chains i) rfl s.arena.length ?_
  exact lt_of_le_of_lt (List.Sublist.length_le (chainAt_sublist _ _ _))
    hInv.len_lt

/-- Whether an operation addresses key `k`. -/
def touches (k : Int) : Op V → Prop
  | .ins k' _ _ => k' = k
  | .del k' => k' = k

theorem mLookup_foldl_untouched (k : Int) :
    ∀ (ops : List (Op V)) (m : List (Int × V)),
      (∀ op ∈ ops, ¬ touches k op) →
      mLookup k (ops.foldl mStep m) = mLookup k m := by
  intro ops
  induction ops with
  | nil => intro m _; rfl
  | cons op t ih =>
    intro m h
    rw [List.foldl_cons,
      ih (mStep m op) (fun o ho => h o (List.mem_cons_of_mem _ ho))]
    cases op with
    | ins k' v g =>
      have hk : k ≠ k' := by
        intro hcc
        exact h _ (List.mem_cons_self _ _) (show k' = k from hcc.symm)
      exact mLookup_mInsert_ne v hk
    | del k' =>
      have hk : k ≠ k' := by
        intro hcc
        exact h _ (List.mem_cons_self _ _) (show k' = k from hcc.symm)
      exact mLookup_mDelete_ne hk

theorem map_keyOf_eq_abs_map_fst (a : List (SLNode V)) (L : List Nat) :
    L.map (keyOf a) = (absL a L).map Prod.fst := by
  unfold absL
  rw [List.map_map]
  rfl

theorem Get_run_eq (ops : List (Op V)) (k : Int) :
    Get (run ops) k =
      match mLookup k (mRun ops) with
      | some v => (v, true)
      | none => (default, false) := by
  obtain ⟨L, hInv, habs⟩ := run_spec ops
  rw [Get_spec hInv k, habs]

/-! ### The claims -/

/-- **C1**: for every key `k` inserted with value `v` and not subsequently
deleted (and not overwritten by a later `Insert` of `k`), `Get(k)` returns
`(v, true)` — for every outcome of the random level draws. -/
theorem C1_round_trip (ops1 ops2 : List (Op V)) (k : Int) (v : V) (g : Nat)
    (h : ∀ op ∈ ops2, ¬ touches k op) :
    Get (run (ops1 ++ Op.ins k v g :: ops2)) k = (v, true) := by
  rw [Get_run_eq]
  have hm : mLookup k (mRun (ops1 ++ Op.ins k v g :: ops2)) = some v := by
    unfold mRun
    rw [List.foldl_append, List.foldl_cons,
      mLookup_foldl_untouched k ops2 _ h]
    exact mLookup_mInsert_self k v
  rw [hm]

theorem C1_round_trip_witness :
    (∀ op ∈ ([] : List (Op Nat)), ¬ touches 1 op) ∧
    Get (run [Op.ins 1 (7 : Nat) 0]) 1 = (7, true) :=
  ⟨fun op h => absurd h (List.not_mem_nil op),
    C1_round_trip [] [] 1 7 0 (fun op h => absurd h (List.not_mem_nil op))⟩

/-- **C2**: on every reachable state, a successful `Delete(k)` makes a
subsequent `Get(k)` report not-found, decrements `Size` by exactly one, and
a second `Delete(k)` returns false; `Delete` of an absent key returns false
and leaves the whole structure unchanged. -/
theorem C2_delete_semantics (ops : List (Op V)) (k : Int) :
    ((Delete (run ops) k).2 = true →
      Get (Delete (run ops) k).1 k = (default, false) ∧
      Size (Delete (run ops) k).1 + 1 = Size (run ops) ∧
      (Delete (Delete (run ops) k).1 k).2 = false) ∧
    ((Get (run ops) k).2 = false → Delete (run ops) k = (run ops, false)) := by
  obtain ⟨L, hInv, habs⟩ := run_spec ops
  obtain ⟨hiff, habsent, L', hInv', habs'⟩ := Delete_spec hInv k
  constructor
  · intro htrue
    have hlook : mLookup k (absL (run ops).arena L) ≠ none := hiff.1 htrue
    have hdel_none : mLookup k (absL (Delete (run ops) k).1.arena L') = none := by
      rw [habs']
      exact mLookup_mDelete_self k (absL_sorted hInv)
    refine ⟨?_, ?_, ?_⟩
    · rw [Get_spec hInv' k, hdel_none]
    · rw [Size_abs hInv', Size_abs hInv, habs']
      exact mDelete_length hlook
    · obtain ⟨hiff2, _, _⟩ := Delete_spec hInv' k
      cases hb : (Delete (Delete (run ops) k).1 k).2
      · rfl
      · exact absurd (hiff2.1 hb) (by rw [hdel_none]; simp)
  · intro hfalse
    refine habsent ?_
    rw [Get_spec hInv k] at hfalse
    cases hl : mLookup k (absL (run ops).arena L)
    · rfl
    · rw [hl] at hfalse
      simp at hfalse

theorem C2_delete_semantics_witness :
    ((Delete (run [Op.ins 2 (5 : Nat) 0]) 2).2 = true ∧
      Get (Delete (run [Op.ins 2 (5 : Nat) 0]) 2).1 2 = (default, false) ∧
      Size (Delete (run [Op.ins 2 (5 : Nat) 0]) 2).1 + 1 =
        Size (run [Op.ins 2 (5 : Nat) 0]) ∧
      (Delete (Delete (run [Op.ins 2 (5 : Nat) 0]) 2).1 2).2 = false) ∧
    ((Get (run [Op.ins 2 (5 : Nat) 0]) 9).2 = false ∧
      Delete (run [Op.ins 2 (5 : Nat) 0]) 9 = (run [Op.ins 2 (5 : Nat) 0], false)) :=
  ⟨⟨by decide, (C2_delete_semantics [Op.ins 2 (5 : Nat) 0] 2).1 (by decide)⟩,
    by decide, (C2_delete_semantics [Op.ins 2 (5 : Nat) 0] 9).2 (by decide)⟩

/-- **C3**: the structure never holds two nodes with equal keys (the level-0
walk's keys are strictly increasing); `Insert` of an already-present key
overwrites that node's value in place — no new node, no height change, same
level and size — leaving everything else untouched. -/
theorem C3_uniqueness_overwrite (ops : List (Op V)) (k : Int) (v : V) (g : Nat) :
    ((levelChain (run ops) 0).map (keyOf (run ops).arena)).Pairwise (· < ·) ∧
    ((Get (run ops) k).2 = true →
      ∃ x nd, (run ops).arena[x]? = some nd ∧ nd.key = k ∧
        Insert (run ops) k v g =
          { run ops with arena := (run ops).arena.set x { nd with value := v } }) := by
  obtain ⟨L, hInv, habs⟩ := run_spec ops
  constructor
  · rw [levelChain_spec hInv 0, chainAt_zero, List.pairwise_map]
    exact hInv.sorted
  · intro htrue
    rcases candidate_spec hInv k with ⟨_, _, hlook⟩ |
      ⟨y, B, hdw, hfwd, hy, hcase⟩
    · rw [Get_spec hInv k, hlook] at htrue
      simp at htrue
    · have hget : (run ops).arena[y]? = some (run ops).arena[y] :=
        List.getElem?_eq_getElem hy
      have hkeyY : keyOf (run ops).arena y = (run ops).arena[y].key := by
        unfold keyOf; rw [hget]
      rcases hcase with ⟨hne, hlook⟩ | ⟨heq, hlook⟩
      · rw [Get_spec hInv k, hlook] at htrue
        simp at htrue
      · refine ⟨y, (run ops).arena[y], hget, by rw [← hkeyY]; exact heq, ?_⟩
        show (match fwd (run ops).arena
            (postX (run ops).arena k (run ops).level 0) 0 with
          | some y =>
            match (run ops).arena[y]? with
            | some nd =>
              if nd.key = k then
                { run ops with arena := (run ops).arena.set y { nd with value := v } }
              else insertNew (run ops) k v (min MAX_LAYER g)
            | none => insertNew (run ops) k v (min MAX_LAYER g)
          | none => insertNew (run ops) k v (min MAX_LAYER g)) = _
        rw [hfwd]
        show (match (run ops).arena[y]? with
          | some nd =>
            if nd.key = k then
              { run ops with arena := (run ops).arena.set y { nd with value := v } }
            else insertNew (run ops) k v (min MAX_LAYER g)
          | none => insertNew (run ops) k v (min MAX_LAYER g)) = _
        rw [hget]
        show (if (run ops).arena[y].key = k then _ else _) = _
        rw [if_pos (by rw [← hkeyY]; exact heq)]

theorem C3_uniqueness_overwrite_witness :
    (Get (run [Op.ins 2 (5 : Nat) 0]) 2).2 = true ∧
    (((levelChain (run [Op.ins 2 (5 : Nat) 0]) 0).map
        (keyOf (run [Op.ins 2 (5 : Nat) 0]).arena)).Pairwise (· < ·) ∧
      ((Get (run [Op.ins 2 (5 : Nat) 0]) 2).2 = true →
        ∃ x nd, (run [Op.ins 2 (5 : Nat) 0]).arena[x]? = some nd ∧ nd.key = 2 ∧
          Insert (run [Op.ins 2 (5 : Nat) 0]) 2 9 3 =
            { run [Op.ins 2 (5 : Nat) 0] with
              arena := (run [Op.ins 2 (5 : Nat) 0]).arena.set x
                { nd with value := 9 } })) :=
  ⟨by decide, C3_uniqueness_overwrite [Op.ins 2 (5 : Nat) 0] 2 9 3⟩

/-- **C4**: after every sequence of operations, at every level `i` the chain
reached from the sentinel by following `forward[i]` pointers has strictly
increasing keys. -/
theorem C4_order_invariant (ops : List (Op V)) (i : Nat) :
    ((levelChain (run ops) i).map (keyOf (run ops).arena)).Pairwise (· < ·) := by
  obtain ⟨L, hInv, _⟩ := run_spec ops
  rw [levelChain_spec hInv i, List.pairwise_map]
  exact hInv.chain_sorted i

/-- **C5** (amended): every node ever created by `Insert` has its height in
`[0, MAX_LAYER]` — at most `MAX_LAYER`, not strictly below it: the drawn
level is `min MAX_LAYER g`, which reaches `MAX_LAYER` itself. -/
theorem C5_height_bounded (ops : List (Op V)) (x : Nat)
    (hx : x ∈ levelChain (run ops) 0) :
    levOf (run ops).arena x ≤ MAX_LAYER := by
  obtain ⟨L, hInv, _⟩ := run_spec ops
  rw [levelChain_spec hInv 0, chainAt_zero] at hx
  exact le_trans (hInv.levLe x hx) hInv.lvlLe

set_option maxRecDepth 8000 in
theorem C5_height_bounded_witness :
    1 ∈ levelChain (run [Op.ins 5 (7 : Nat) 40]) 0 ∧
    levOf (run [Op.ins 5 (7 : Nat) 40]).arena 1 ≤ MAX_LAYER :=
  ⟨by decide, C5_height_bounded [Op.ins 5 (7 : Nat) 40] 1 (by decide)⟩

set_option maxRecDepth 8000 in
/-- **C5** counterexample: with the (possible) geometric sample 40, the node
created for key 5 gets height exactly `MAX_LAYER` (= 32), which is *not*
strictly less than `MAX_LAYER`; so heights reach `MAX_LAYER`, refuting the
claimed bound `[0, MAX_LAYER - 1]`. -/
theorem C5_counterexample :
    1 ∈ levelChain (run [Op.ins 5 (7 : Nat) 40]) 0 ∧
    levOf (run [Op.ins 5 (7 : Nat) 40]).arena 1 = MAX_LAYER ∧
    ¬ (MAX_LAYER < MAX_LAYER) := by
  refine ⟨by decide, by decide, by decide⟩

/-- **C6** (amended): a promotion probability outside `(0,1)` makes the
level generator panic (`none`) instead of clamping — but the check fires at
the first level draw inside `Insert` of a fresh key, not at construction;
with a valid probability `InsertP` never fails. -/
theorem C6_failfast (p : ℚ) (s : SkipList V) (k : Int) (v : V) (g : Nat) :
    ((p ≤ 0 ∨ 1 ≤ p) → (Get s k).2 = false → InsertP p s k v g = none) ∧
    (0 < p → p < 1 → InsertP p s k v g = some (Insert s k v g)) := by
  have hbad : (p ≤ 0 ∨ 1 ≤ p) → defaultRngLevelGen p MAX_LAYER g = none := by
    intro hp
    unfold defaultRngLevelGen geometric
    rw [if_pos hp]
    rfl
  have hok : 0 < p → p < 1 →
      defaultRngLevelGen p MAX_LAYER g = some (min MAX_LAYER g) := by
    intro h1 h2
    unfold defaultRngLevelGen geometric
    rw [if_neg (by push_neg; exact ⟨h1, h2⟩)]
    rfl
  constructor
  · intro hp hget
    show (match fwd s.arena (postX s.arena k s.level 0) 0 with
      | some y =>
        match s.arena[y]? with
        | some nd =>
          if nd.key = k then
            some { s with arena := s.arena.set y { nd with value := v } }
          else
            match defaultRngLevelGen p MAX_LAYER g with
            | some lvl => some (insertNew s k v lvl)
            | none => none
        | none =>
          match defaultRngLevelGen p MAX_LAYER g with
          | some lvl => some (insertNew s k v lvl)
          | none => none
      | none =>
        match defaultRngLevelGen p MAX_LAYER g with
        | some lvl => some (insertNew s k v lvl)
        | none => none) = none
    cases hf : fwd s.arena (postX s.arena k s.level 0) 0 with
    | none =>
      show (match defaultRngLevelGen p MAX_LAYER g with
        | some lvl => some (insertNew s k v lvl)
        | none => none) = none
      rw [hbad hp]
    | some y =>
      show (match s.arena[y]? with
        | some nd =>
          if nd.key = k then
            some { s with arena := s.arena.set y { nd with value := v } }
          else
            match defaultRngLevelGen p MAX_LAYER g with
            | some lvl => some (insertNew s k v lvl)
            | none => none
        | none =>
          match defaultRngLevelGen p MAX_LAYER g with
          | some lvl => some (insertNew s k v lvl)
          | none => none) = none
      cases hgy : s.arena[y]? with
      | none =>
        show (match defaultRngLevelGen p MAX_LAYER g with
          | some lvl => some (insertNew s k v lvl)
          | none => none) = none
        rw [hbad hp]
      | some nd =>
        have hkne : nd.key ≠ k := by
          intro hcc
          have hg : (Get s k).2 = true := by
            show ((match (fwd s.arena (postX s.arena k s.level 0) 0).bind
                (s.arena[·]?) with
              | some nd => if nd.key = k then (nd.value, true)
                           else (default, false)
              | none => (default, false)).2 : Bool) = true
            rw [hf]
            show ((match s.arena[y]? with
              | some nd => if nd.key = k then (nd.value, true)
                           else (default, false)
              | none => (default, false)).2 : Bool) = true
            rw [hgy]
            show ((if nd.key = k then (nd.value, true)
                   else ((default : V), false)).2 : Bool) = true
            rw [if_pos hcc]
          rw [hg] at hget
          exact Bool.noConfusion hget
        show (if nd.key = k then
            some { s with arena := s.arena.set y { nd with value := v } }
          else
            match defaultRngLevelGen p MAX_LAYER g with
            | some lvl => some (insertNew s k v lvl)
            | none => none) = none
        rw [if_neg hkne, hbad hp]
  · intro h1 h2
    show (match fwd s.arena (postX s.arena k s.level 0) 0 with
      | some y =>
        match s.arena[y]? with
        | some nd =>
          if nd.key = k then
            some { s with arena := s.arena.set y { nd with value := v } }
          else
            match defaultRngLevelGen p MAX_LAYER g with
            | some lvl => some (insertNew s k v lvl)
            | none => none
        | none =>
          match defaultRngLevelGen p MAX_LAYER g with
          | some lvl => some (insertNew s k v lvl)
          | none => none
      | none =>
        match defaultRngLevelGen p MAX_LAYER g with
        | some lvl => some (insertNew s k v lvl)
        | none => none) =
      some (match fwd s.arena (postX s.arena k s.level 0) 0 with
      | some y =>
        match s.arena[y]? with
        | some nd =>
          if nd.key = k then
            { s with arena := s.arena.set y { nd with value := v } }
          else insertNew s k v (min MAX_LAYER g)
        | none => insertNew s k v (min MAX_LAYER g)
      | none => insertNew s k v (min MAX_LAYER g))
    cases hf : fwd s.arena (postX s.arena k s.level 0) 0 with
    | none =>
      show (match defaultRngLevelGen p MAX_LAYER g with
        | some lvl => some (insertNew s k v lvl)
        | none => none) = some (insertNew s k v (min MAX_LAYER g))
      rw [hok h1 h2]
    | some y =>
      show (match s.arena[y]? with
        | some nd =>
          if nd.key = k then
            some { s with arena := s.arena.set y { nd with value := v } }
          else
            match defaultRngLevelGen p MAX_LAYER g with
            | some lvl => some (insertNew s k v lvl)
            | none => none
        | none =>
          match defaultRngLevelGen p MAX_LAYER g with
          | some lvl => some (insertNew s k v lvl)
          | none => none) =
        some (match s.arena[y]? with
        | some nd =>
          if nd.key = k then
            { s with arena := s.arena.set y { nd with value := v } }
          else insertNew s k v (min MAX_LAYER g)
        | none => insertNew s k v (min MAX_LAYER g))
      cases hgy : s.arena[y]? with
      | none =>
        show (match defaultRngLevelGen p MAX_LAYER g with
          | some lvl => some (insertNew s k v lvl)
          | none => none) = some (insertNew s k v (min MAX_LAYER g))
        rw [hok h1 h2]
      | some nd =>
        show (if nd.key = k then
            some { s with arena := s.arena.set y { nd with value := v } }
          else
            match defaultRngLevelGen p MAX_LAYER g with
            | some lvl => some (insertNew s k v lvl)
            | none => none) =
          some (if nd.key = k then
            { s with arena := s.arena.set y { nd with value := v } }
          else insertNew s k v (min MAX_LAYER g))
        by_cases hk : nd.key = k
        · rw [if_pos hk, if_pos hk]
        · rw [if_neg hk, if_neg hk, hok h1 h2]

theorem C6_failfast_witness :
    ((2 : ℚ) ≤ 0 ∨ (1 : ℚ) ≤ 2) ∧
    (Get (CreateSkipList : SkipList Nat) 1).2 = false ∧
    InsertP 2 (CreateSkipList : SkipList Nat) 1 5 0 = none ∧
    (0 : ℚ) < 1 / 4 ∧ (1 / 4 : ℚ) < 1 ∧
    InsertP (1 / 4) (CreateSkipList : SkipList Nat) 1 5 0 =
      some (Insert (CreateSkipList : SkipList Nat) 1 5 0) :=
  ⟨Or.inr (by norm_num), by decide,
    (C6_failfast 2 (CreateSkipList : SkipList Nat) 1 5 0).1
      (Or.inr (by norm_num)) (by decide),
    by norm_num, by norm_num,
    (C6_failfast (1 / 4) (CreateSkipList : SkipList Nat) 1 5 0).2
      (by norm_num) (by norm_num)⟩

/-- **C6** counterexample: with the promotion probability misconfigured to 2,
construction still succeeds and yields a perfectly usable empty structure
(size 0, lookups answer not-found); the fatal error only fires later, inside
the first `Insert` of a fresh key. The check is therefore *not* performed at
construction time as the claim states. -/
theorem C6_counterexample :
    Size (CreateSkipList : SkipList Nat) = 0 ∧
    Get (CreateSkipList : SkipList Nat) 1 = (0, false) ∧
    InsertP 2 (CreateSkipList : SkipList Nat) 1 5 0 = none := by
  refine ⟨rfl, by decide, by decide⟩

/-- **C7**: after every successful `Delete` the structure's current level is
tight — it is 0 or the topmost level's sentinel forward pointer is non-nil
(the shrink loop ran to completion) — and an empty structure has current
level 0. -/
theorem C7_level_shrink (ops : List (Op V)) (k : Int) :
    ((Delete (run ops) k).2 = true →
      (Delete (run ops) k).1.level = 0 ∨
        fwd (Delete (run ops) k).1.arena 0 (Delete (run ops) k).1.level ≠ none) ∧
    (Size (run ops) = 0 → (run ops).level = 0) := by
  obtain ⟨L, hInv, habs⟩ := run_spec ops
  constructor
  · intro _
    obtain ⟨_, _, L', hInv', _⟩ := Delete_spec hInv k
    exact hInv'.tight
  · intro hsz
    have hlen : L.length = 0 := by
      have h1 : (run ops).size = L.length := hInv.sizeEq
      have h2 : (run ops).size = 0 := hsz
      omega
    have hL : L = [] := List.eq_nil_of_length_eq_zero hlen
    rcases hInv.tight with h0 | hne
    · exact h0
    · exfalso
      have hchain := hInv.chains (run ops).level
      rw [hL] at hchain
      have hnil : chainAt (run ops).arena [] (run ops).level = [] := rfl
      rw [hnil] at hchain
      exact hne hchain.eq_of_nil

theorem C7_level_shrink_witness :
    ((Delete (run [Op.ins 4 (6 : Nat) 2]) 4).2 = true ∧
      ((Delete (run [Op.ins 4 (6 : Nat) 2]) 4).1.level = 0 ∨
        fwd (Delete (run [Op.ins 4 (6 : Nat) 2]) 4).1.arena 0
          (Delete (run [Op.ins 4 (6 : Nat) 2]) 4).1.level ≠ none)) ∧
    (Size (run [Op.ins 4 (6 : Nat) 2, Op.del 4]) = 0 ∧
      (run [Op.ins 4 (6 : Nat) 2, Op.del 4]).level = 0) :=
  ⟨⟨by decide, (C7_level_shrink [Op.ins 4 (6 : Nat) 2] 4).1 (by decide)⟩,
    by decide, (C7_level_shrink [Op.ins 4 (6 : Nat) 2, Op.del 4] 4).2 (by decide)⟩

/-- **C8**: the concrete scenario — insert `1:"one"`, `3:"three"`,
`25:"twenty-five"`, `15:"fifteen"`, `5:"five"` into a fresh structure;
`Get 15 = ("fifteen", true)`; `Get 100 = ("", false)` (the zero value);
`Delete 3` and then `Delete 25` both return true; afterwards `Get 3` and
`Get 25` report not-found, `Size` is 3 and the level-0 walk visits keys
`1, 5, 15` in increasing order — for every outcome of the random level
draws `g1 … g5`. -/
theorem C8_scenario (g1 g2 g3 g4 g5 : Nat) :
    Get (run [Op.ins 1 "one" g1, Op.ins 3 "three" g2, Op.ins 25 "twenty-five" g3,
      Op.ins 15 "fifteen" g4, Op.ins 5 "five" g5]) 15 = ("fifteen", true) ∧
    Get (run [Op.ins 1 "one" g1, Op.ins 3 "three" g2, Op.ins 25 "twenty-five" g3,
      Op.ins 15 "fifteen" g4, Op.ins 5 "five" g5]) 100 = ("", false) ∧
    (Delete (run [Op.ins 1 "one" g1, Op.ins 3 "three" g2, Op.ins 25 "twenty-five" g3,
      Op.ins 15 "fifteen" g4, Op.ins 5 "five" g5]) 3).2 = true ∧
    (Delete (run [Op.ins 1 "one" g1, Op.ins 3 "three" g2, Op.ins 25 "twenty-five" g3,
      Op.ins 15 "fifteen" g4, Op.ins 5 "five" g5, Op.del 3]) 25).2 = true ∧
    (Get (run [Op.ins 1 "one" g1, Op.ins 3 "three" g2, Op.ins 25 "twenty-five" g3,
      Op.ins 15 "fifteen" g4, Op.ins 5 "five" g5, Op.del 3, Op.del 25]) 3).2 = false ∧
    (Get (run [Op.ins 1 "one" g1, Op.ins 3 "three" g2, Op.ins 25 "twenty-five" g3,
      Op.ins 15 "fifteen" g4, Op.ins 5 "five" g5, Op.del 3, Op.del 25]) 25).2 = false ∧
    Size (run [Op.ins 1 "one" g1, Op.ins 3 "three" g2, Op.ins 25 "twenty-five" g3,
      Op.ins 15 "fifteen" g4, Op.ins 5 "five" g5, Op.del 3, Op.del 25]) = 3 ∧
    (levelChain (run [Op.ins 1 "one" g1, Op.ins 3 "three" g2, Op.ins 25 "twenty-five" g3,
      Op.ins 15 "fifteen" g4, Op.ins 5 "five" g5, Op.del 3, Op.del 25]) 0).map
      (keyOf (run [Op.ins 1 "one" g1, Op.ins 3 "three" g2, Op.ins 25 "twenty-five" g3,
        Op.ins 15 "fifteen" g4, Op.ins 5 "five" g5, Op.del 3, Op.del 25]).arena) =
      [1, 5, 15] := by
  obtain ⟨L5, hInv5, habs5⟩ := run_spec [Op.ins 1 "one" g1, Op.ins 3 "three" g2,
    Op.ins 25 "twenty-five" g3, Op.ins 15 "fifteen" g4, Op.ins 5 "five" g5]
  obtain ⟨L6, hInv6, habs6⟩ := run_spec [Op.ins 1 "one" g1, Op.ins 3 "three" g2,
    Op.ins 25 "twenty-five" g3, Op.ins 15 "fifteen" g4, Op.ins 5 "five" g5, Op.del 3]
  obtain ⟨L7, hInv7, habs7⟩ := run_spec [Op.ins 1 "one" g1, Op.ins 3 "three" g2,
    Op.ins 25 "twenty-five" g3, Op.ins 15 "fifteen" g4, Op.ins 5 "five" g5,
    Op.del 3, Op.del 25]
  refine ⟨?_, ?_, ?_, ?_, ?_, ?_, ?_, ?_⟩
  · rw [Get_run_eq]
    rfl
  · rw [Get_run_eq]
    rfl
  · refine (Delete_spec hInv5 3).1.2 ?_
    rw [habs5]
    intro hcc
    exact Option.noConfusion hcc
  · refine (Delete_spec hInv6 25).1.2 ?_
    rw [habs6]
    intro hcc
    exact Option.noConfusion hcc
  · rw [Get_run_eq]
    rfl
  · rw [Get_run_eq]
    rfl
  · rw [Size_abs hInv7, habs7]
    rfl
  · rw [levelChain_spec hInv7 0, chainAt_zero,
      map_keyOf_eq_abs_map_fst _ L7, habs7]
    rfl

end SkipListGo

/-- **C10**: the two stack implementations — the private `stack` behind the
interface in `stack/stack.go` and the exported slice `Stack` variant — are
observationally equivalent for `Push`, `Pop`, `Peek` and `Len`: starting
from the same element sequence each operation returns the same result and
leaves the same sequence, and `Pop`/`Peek` on an empty stack return the
zero value of `T` and `false` in both. -/
theorem C10_stack_equiv {T : Type} [Inhabited T] (s : List T) (t : T) :
    stacklib.Pop s = stackexp.Pop s ∧
    stacklib.Peek s = stackexp.Peek s ∧
    stacklib.Len s = stackexp.Len s ∧
    stacklib.Push s t = stackexp.Push s t ∧
    (s = [] →
      stacklib.Pop s = (s, default, false) ∧
      stackexp.Pop s = (s, default, false) ∧
      stacklib.Peek s = (default, false) ∧
      stackexp.Peek s = (default, false)) := by
  refine ⟨rfl, rfl, rfl, rfl, ?_⟩
  rintro rfl
  exact ⟨rfl, rfl, rfl, rfl⟩

theorem C10_stack_equiv_witness :
    ([] : List Nat) = [] ∧
    (stacklib.Pop ([] : List Nat) = ([], default, false) ∧
      stackexp.Pop ([] : List Nat) = ([], default, false) ∧
      stacklib.Peek ([] : List Nat) = (default, false) ∧
      stackexp.Peek ([] : List Nat) = (default, false)) :=
  ⟨rfl, (C10_stack_equiv ([] : List Nat) 0).2.2.2.2 rfl⟩
